import Mathlib

set_option maxHeartbeats 1000000
set_option allowUnsafeReducibility true
attribute [semireducible] Rat.mul Rat.add Rat.sub Rat.inv Rat.ofScientific

namespace PIdx

/-- Python strings are modelled as lists of characters. -/
abbrev Str := List Char

/-- Whitespace characters removed by str.strip with no arguments (ASCII set). -/
def isPySpace (c : Char) : Bool :=
  c == ' ' || c == '\t' || c == '\n' || c == '\r' || c == Char.ofNat 11 || c == Char.ofNat 12

/-- Python str.strip: drop leading and trailing whitespace. -/
def pystrip (s : Str) : Str :=
  ((s.dropWhile isPySpace).reverse.dropWhile isPySpace).reverse

/-- Python str.lower, per character (ASCII-adequate for the behaviour modelled). -/
def lowerStr (s : Str) : Str := s.map Char.toLower

/-- Python str.isdigit for ASCII digit strings: nonempty and all digits. -/
def pyIsDigit (q : Str) : Bool := !q.isEmpty && q.all Char.isDigit

/-- Python int(...) on a digit string. -/
def digitsToInt (q : Str) : Int :=
  q.foldl (fun a c => a * 10 + ((c.toNat : Int) - 48)) 0

/-- Lookup in a Python dict, modelled as an insertion-ordered association list. -/
def dlookup {K V : Type} [DecidableEq K] (d : List (K × V)) (k : K) : Option V :=
  (d.find? (fun kv => decide (kv.1 = k))).map (fun kv => kv.2)

/-- Python dict assignment: replace the value in place if the key exists, else append. -/
def dinsert {K V : Type} [DecidableEq K] : List (K × V) → K → V → List (K × V)
  | [], k, v => [(k, v)]
  | (k0, v0) :: rest, k, v =>
    if k0 = k then (k, v) :: rest else (k0, v0) :: dinsert rest k v

/-- Python set.add on a set modelled as an insertion-ordered duplicate-free list. -/
def setAdd (l : List Int) (x : Int) : List Int := if x ∈ l then l else l ++ [x]

/-- defaultdict(set) update: d[k].add(v). -/
def dAddSet {K : Type} [DecidableEq K] : List (K × List Int) → K → Int → List (K × List Int)
  | [], k, v => [(k, [v])]
  | (k0, l0) :: rest, k, v =>
    if k0 = k then (k0, setAdd l0 v) :: rest else (k0, l0) :: dAddSet rest k v

/-- defaultdict(list) update: d[k].append(v). -/
def dAppendList {K : Type} [DecidableEq K] : List (K × List Int) → K → Int → List (K × List Int)
  | [], k, v => [(k, [v])]
  | (k0, l0) :: rest, k, v =>
    if k0 = k then (k0, l0 ++ [v]) :: rest else (k0, l0) :: dAppendList rest k v

/-- Python set(list): deduplicate keeping first occurrences. -/
def dedupList (l : List Int) : List Int :=
  l.foldl (fun acc x => if x ∈ acc then acc else acc ++ [x]) []

/-- Python set intersection a and b, iterating in the order of a. -/
def interList (a b : List Int) : List Int := a.filter (fun x => x ∈ b)

/-- Python set.update (union), appending the new elements of b after a. -/
def unionList (a b : List Int) : List Int := b.foldl setAdd a

/-- Python slice l[:n] for an arbitrary (possibly negative) integer bound n. -/
def pySliceTo {α : Type} (l : List α) (n : Int) : List α :=
  if 0 ≤ n then l.take n.toNat else l.take (l.length - (-n).toNat)

/-- All adjacent 2-character substrings of a string (name[i:i+2]). -/
def bigrams : Str → List Str
  | [] => []
  | [_] => []
  | a :: b :: t => [a, b] :: bigrams (b :: t)

/-- The pypinyin lazy_pinyin interface: a string to its list of phonetic segments.
The library is external; search and product construction are parameterized over it,
with none modelling the ImportError fallback (HAS_PYPINYIN = False). -/
def Pinyin : Type := Str → List Str

/-- Inner loop of the row-based Levenshtein dynamic program (one row cell at a time). -/
def levInner (c1 : Char) : List Char → List Nat → Nat → List Nat
  | [], _, _ => []
  | c2 :: rest, prow, curj =>
    match prow with
    | [] => []
    | pj :: ptail =>
      let ins := ptail.headD 0 + 1
      let del := curj + 1
      let sub := pj + (if c1 = c2 then 0 else 1)
      let v := min ins (min del sub)
      v :: levInner c1 rest ptail v

/-- Outer loop of the Levenshtein dynamic program over the characters of s1. -/
def levLoop (s2 : Str) : List Char → Nat → List Nat → List Nat
  | [], _, prev => prev
  | c1 :: rest, i, prev => levLoop s2 rest (i + 1) ((i + 1) :: levInner c1 s2 prev (i + 1))

/-- FastProductIndex._levenshtein_distance: edit distance with the shorter string second. -/
def levenshtein (a b : Str) : Nat :=
  let p := if a.length < b.length then (b, a) else (a, b)
  if p.2.length = 0 then p.1.length
  else (levLoop p.2 p.1 0 (List.range (p.2.length + 1))).getLastD 0

/-- Product dataclass: one catalog entity with its precomputed lookup fields. -/
structure Product where
  id : Int
  code : Str
  name : Str
  category : Str
  category2 : Str
  category3 : Str
  unit : Str
  price : ℚ
  spec : Str
  brand : Str
  manufacturer : Str
  status : Str
  name_lower : Str
  name_pinyin : Str
  name_initials : Str
deriving DecidableEq

/-- Product construction including the __post_init__ computed fields. -/
def mkProduct (py : Option Pinyin) (id : Int) (code name category category2 category3 unit : Str)
    (price : ℚ) (spec brand manufacturer status : Str) : Product :=
  { id := id, code := code, name := name, category := category, category2 := category2
    category3 := category3, unit := unit, price := price, spec := spec, brand := brand
    manufacturer := manufacturer, status := status
    name_lower := lowerStr name
    name_pinyin := match py with | some f => (f name).flatten | none => []
    name_initials := match py with | some f => (f name).filterMap List.head? | none => [] }

/-- SearchResult dataclass. -/
structure SearchResult where
  product : Product
  score : ℚ
  match_type : Str
  matched_field : Str
deriving DecidableEq

/-- CalibrationResult dataclass. -/
structure CalibrationResult where
  original : Str
  calibrated : Str
  product : Option Product
  confidence : ℚ
  match_type : Str
  suggestion : Option Str
  is_ambiguous : Bool
  candidates : List Str
deriving DecidableEq

/-- Trie node: children map, end-of-word flag, and the product-id set of this node. -/
inductive TrieNode : Type
  | mk (children : List (Char × TrieNode)) (isEnd : Bool) (pids : List Int) : TrieNode

/-- Association lookup among a node's children. -/
def aFind : List (Char × TrieNode) → Char → Option TrieNode
  | [], _ => none
  | (c0, t0) :: rest, c => if c0 = c then some t0 else aFind rest c

/-- Replace or append a child binding. -/
def aUpsert : List (Char × TrieNode) → Char → TrieNode → List (Char × TrieNode)
  | [], c, t => [(c, t)]
  | (c0, t0) :: rest, c, t => if c0 = c then (c, t) :: rest else (c0, t0) :: aUpsert rest c t

/-- Trie.insert: every node on the path below the root records the product id;
the terminal node is marked end-of-word. -/
def trieInsert : TrieNode → Str → Int → TrieNode
  | TrieNode.mk ch _ pids, [], _ => TrieNode.mk ch true pids
  | TrieNode.mk ch e pids, c :: w, pid =>
    let child := match aFind ch c with
      | some t => t
      | none => TrieNode.mk [] false []
    let child := match child with
      | TrieNode.mk cch ce cp => TrieNode.mk cch ce (setAdd cp pid)
    let child := trieInsert child w pid
    TrieNode.mk (aUpsert ch c child) e pids

/-- Trie.search_prefix: the id set at the node reached by walking the given string. -/
def trieWalk : TrieNode → Str → List Int
  | TrieNode.mk _ _ pids, [] => pids
  | TrieNode.mk ch _ _, c :: w =>
    match aFind ch c with
    | none => []
    | some t => trieWalk t w

/-- The whole FastProductIndex state. -/
structure IndexState where
  by_name : List (Str × Product)
  by_name_lower : List (Str × Product)
  by_id : List (Int × Product)
  by_code : List (Str × Product)
  name_trie : TrieNode
  pinyin_trie : TrieNode
  initials_trie : TrieNode
  char_index : List (Char × List Int)
  bigram_index : List (Str × List Int)
  by_category : List (Str × List Int)
  products : List (Int × Product)
  total_count : Int

/-- FastProductIndex.__init__. -/
def emptyIndex : IndexState :=
  { by_name := [], by_name_lower := [], by_id := [], by_code := []
    name_trie := TrieNode.mk [] false [], pinyin_trie := TrieNode.mk [] false []
    initials_trie := TrieNode.mk [] false []
    char_index := [], bigram_index := [], by_category := [], products := [], total_count := 0 }

/-- FastProductIndex.add_product. -/
def addProduct (st : IndexState) (p : Product) : IndexState :=
  { by_name := dinsert st.by_name p.name p
    by_name_lower := dinsert st.by_name_lower p.name_lower p
    by_id := dinsert st.by_id p.id p
    by_code := if p.code ≠ [] then dinsert st.by_code p.code p else st.by_code
    name_trie := trieInsert st.name_trie p.name p.id
    pinyin_trie := if p.name_pinyin ≠ [] then trieInsert st.pinyin_trie p.name_pinyin p.id
      else st.pinyin_trie
    initials_trie := if p.name_initials ≠ [] then trieInsert st.initials_trie p.name_initials p.id
      else st.initials_trie
    char_index := p.name.foldl (fun d c => dAddSet d c p.id) st.char_index
    bigram_index := (bigrams p.name).foldl (fun d b => dAddSet d b p.id) st.bigram_index
    by_category := if p.category ≠ [] then dAppendList st.by_category p.category p.id
      else st.by_category
    products := dinsert st.products p.id p
    total_count := st.total_count + 1 }

/-- Build an index by adding a list of products in order to a fresh index. -/
def buildIndex (l : List Product) : IndexState := l.foldl addProduct emptyIndex

/-- The match_type tag for exact matches. -/
def tagExact : Str := "exact".toList

/-- The match_type tag for trie matches on name beginnings. -/
def tagPre : Str := "prefix".toList

/-- The match_type tag for contains matches. -/
def tagCont : Str := "contains".toList

/-- The match_type tag for phonetic matches. -/
def tagPy : Str := "pinyin".toList

/-- The match_type tag for fuzzy matches. -/
def tagFuzzy : Str := "fuzzy".toList

/-- The match_type tag for the empty-input calibration result. -/
def tagNone : Str := "none".toList

/-- The match_type tag for the no-result calibration result. -/
def tagNotFound : Str := "not_found".toList

/-- matched_field tag: name. -/
def fldName : Str := "name".toList

/-- matched_field tag: id. -/
def fldId : Str := "id".toList

/-- matched_field tag: code. -/
def fldCode : Str := "code".toList

/-- matched_field tag: pinyin. -/
def fldPy : Str := "pinyin".toList

/-- matched_field tag: initials. -/
def fldInit : Str := "initials".toList

/-- The category filter set: built only when the category argument is truthy and
registered in by_category; otherwise no filtering happens at all. -/
def catFilterOf (st : IndexState) : Option Str → Option (List Int)
  | none => none
  | some c =>
    if c ≠ [] then
      match dlookup st.by_category c with
      | some ids => some (dedupList ids)
      | none => none
    else none

/-- The add_result closure: deduplicate by product id, apply the (truthy) category
filter, then append the new result at the end. -/
def addResult (filt : Option (List Int)) (rs : List SearchResult) (p : Product) (s : ℚ)
    (mt fl : Str) : List SearchResult :=
  if rs.any (fun r => r.product.id == p.id) then rs
  else if filt.getD [] ≠ [] ∧ p.id ∉ filt.getD [] then rs
  else rs ++ [⟨p, s, mt, fl⟩]

/-- A generic tier loop: iterate over candidate keys, break once limit results are
collected, skip keys the step rejects, and add the rest via add_result. -/
def tierLoop (filt : Option (List Int)) (lim : Int)
    (step : Int → Option (Product × ℚ × Str × Str)) :
    List Int → List SearchResult → List SearchResult
  | [], rs => rs
  | x :: rest, rs =>
    if lim ≤ (rs.length : Int) then rs
    else
      match step x with
      | none => tierLoop filt lim step rest rs
      | some (p, s, mt, fl) => tierLoop filt lim step rest (addResult filt rs p s mt fl)

/-- Layer 2 step: look the id up in products and score the match on name beginnings. -/
def stepPre (st : IndexState) (q : Str) (pid : Int) : Option (Product × ℚ × Str × Str) :=
  (dlookup st.products pid).map (fun p =>
    (p, min (19/20 : ℚ) (7/10 + (if p.name ≠ [] then (q.length : ℚ) / (p.name.length : ℚ) else 0) * (1/4)),
      tagPre, fldName))

/-- Layer 3 bigram step: only names actually containing the query are scored. -/
def stepBigram (st : IndexState) (q : Str) (pid : Int) : Option (Product × ℚ × Str × Str) :=
  (dlookup st.products pid).bind (fun p =>
    if q <:+: p.name then
      some (p, min (9/10 : ℚ) (1/2 + (q.length : ℚ) / (p.name.length : ℚ) * (2/5)), tagCont, fldName)
    else none)

/-- Layer 3 loosened single-character step. -/
def stepChar (st : IndexState) (q : Str) (pid : Int) : Option (Product × ℚ × Str × Str) :=
  (dlookup st.products pid).map (fun p =>
    (p, min (7/10 : ℚ) ((q.length : ℚ) / (p.name.length : ℚ) * (3/5)), tagCont, fldName))

/-- Layer 4 full-transliteration step. -/
def stepPy (st : IndexState) (qp : Str) (pid : Int) : Option (Product × ℚ × Str × Str) :=
  (dlookup st.products pid).map (fun p =>
    (p, min (4/5 : ℚ)
      (2/5 + (if p.name_pinyin ≠ [] then (qp.length : ℚ) / (p.name_pinyin.length : ℚ) else 0) * (2/5)),
      tagPy, fldPy))

/-- Layer 4 initials step: flat score 0.5. -/
def stepInit (st : IndexState) (pid : Int) : Option (Product × ℚ × Str × Str) :=
  (dlookup st.products pid).map (fun p => (p, (1/2 : ℚ), tagPy, fldInit))

/-- Layer 1, first step: exact name match, else the lowercased-name fallback. -/
def l1name (st : IndexState) (q ql : Str) (filt : Option (List Int)) : List SearchResult :=
  match dlookup st.by_name q with
  | some p => addResult filt [] p 1 tagExact fldName
  | none =>
    match dlookup st.by_name_lower ql with
    | some p => addResult filt [] p (99/100) tagExact fldName
    | none => []

/-- Layer 1, second step: id lookup for all-digit queries. -/
def l1digit (st : IndexState) (q : Str) (filt : Option (List Int))
    (rs : List SearchResult) : List SearchResult :=
  if pyIsDigit q then
    match dlookup st.by_id (digitsToInt q) with
    | some p => addResult filt rs p 1 tagExact fldId
    | none => rs
  else rs

/-- Layer 1, third step: code lookup. -/
def l1code (st : IndexState) (q : Str) (filt : Option (List Int))
    (rs : List SearchResult) : List SearchResult :=
  match dlookup st.by_code q with
  | some p => addResult filt rs p 1 tagExact fldCode
  | none => rs

/-- Layer 1: exact name (with lowercase fallback), id and code lookups. -/
def layer1 (st : IndexState) (q ql : Str) (filt : Option (List Int)) : List SearchResult :=
  l1code st q filt (l1digit st q filt (l1name st q ql filt))

/-- Layer 2: trie matches on name beginnings. -/
def stagePre (st : IndexState) (q : Str) (filt : Option (List Int)) (lim : Int)
    (rs : List SearchResult) : List SearchResult :=
  tierLoop filt lim (stepPre st q) (trieWalk st.name_trie q) rs

/-- Layer 3, bigram intersection. -/
def stageBigram (st : IndexState) (q : Str) (filt : Option (List Int)) (lim : Int)
    (rs : List SearchResult) : List SearchResult :=
  if 2 ≤ q.length then
    match (bigrams q).filterMap (fun b => dlookup st.bigram_index b) with
    | [] => rs
    | s0 :: srest => tierLoop filt lim (stepBigram st q) (srest.foldl interList s0) rs
  else rs

/-- Layer 3, loosened single-character intersection (only below the limit). -/
def stageChar (st : IndexState) (q : Str) (filt : Option (List Int)) (lim : Int)
    (rs : List SearchResult) : List SearchResult :=
  if (rs.length : Int) < lim then
    let cs := q.map (fun c => (dlookup st.char_index c).getD [])
    if cs ≠ [] ∧ ∀ s ∈ cs, s ≠ [] then
      match cs with
      | [] => rs
      | s0 :: srest =>
        tierLoop filt lim (stepChar st q) (pySliceTo (srest.foldl interList s0) (lim * 2)) rs
    else rs
  else rs

/-- Layer 4: phonetic matches, active only when the pinyin generator is available. -/
def stagePinyin (py : Option Pinyin) (st : IndexState) (q : Str) (filt : Option (List Int))
    (lim : Int) (rs : List SearchResult) : List SearchResult :=
  match py with
  | none => rs
  | some f =>
    let qp := (f q).flatten
    let rs := tierLoop filt lim (stepPy st qp) (trieWalk st.pinyin_trie qp) rs
    if (rs.length : Int) < lim ∧ q.length ≤ 6 then
      tierLoop filt lim (stepInit st) (trieWalk st.initials_trie (qp.take q.length)) rs
    else rs

/-- Stable descending insertion for pairs scored in the second component. -/
def pairIns (a : Product × ℚ) : List (Product × ℚ) → List (Product × ℚ)
  | [] => [a]
  | b :: t => if a.2 < b.2 then b :: pairIns a t else a :: b :: t

/-- Stable sort of scored pairs by descending score (results.sort reverse=True). -/
def pairSortDesc : List (Product × ℚ) → List (Product × ℚ)
  | [] => []
  | a :: t => pairIns a (pairSortDesc t)

/-- FastProductIndex._fuzzy_search. -/
def fuzzySearch (st : IndexState) (q : Str) (flim : Int) (filt : Option (List Int)) :
    List (Product × ℚ) :=
  let cands := q.foldl (fun acc c => unionList acc ((dlookup st.char_index c).getD [])) []
  let cands := match filt with
    | some fs => if fs ≠ [] then cands.filter (fun x => x ∈ fs) else cands
    | none => cands
  let cands := cands.take 500
  let scored := cands.filterMap (fun pid =>
    (dlookup st.products pid).bind (fun p =>
      let d := levenshtein q p.name
      let ml := max q.length p.name.length
      if 0 < ml then
        let sim : ℚ := 1 - (d : ℚ) / (ml : ℚ)
        if 1/2 < sim then some (p, sim * (7/10)) else none
      else none))
  pySliceTo (pairSortDesc scored) flim

/-- Add every fuzzy result through add_result (this loop has no break). -/
def fuzzyAddLoop (filt : Option (List Int)) : List (Product × ℚ) → List SearchResult →
    List SearchResult
  | [], rs => rs
  | (p, s) :: rest, rs => fuzzyAddLoop filt rest (addResult filt rs p s tagFuzzy fldName)

/-- Layer 5: fuzzy matches, active only below the limit and for queries of length 2 or more. -/
def stageFuzzy (st : IndexState) (q : Str) (filt : Option (List Int)) (lim : Int)
    (rs : List SearchResult) : List SearchResult :=
  if (rs.length : Int) < lim ∧ 2 ≤ q.length then
    fuzzyAddLoop filt (fuzzySearch st q (lim - (rs.length : Int)) filt) rs
  else rs

/-- Stable descending insertion for search results by score. -/
def resIns (a : SearchResult) : List SearchResult → List SearchResult
  | [] => [a]
  | b :: t => if a.score < b.score then b :: resIns a t else a :: b :: t

/-- The final results.sort(key=score, reverse=True): a stable descending sort. -/
def sortByScoreDesc : List SearchResult → List SearchResult
  | [] => []
  | a :: t => resIns a (sortByScoreDesc t)

/-- The tiered collection phase of FastProductIndex.search: returns the list of results
collected at the point where the function returns, and whether that point is the final
return (where the list is sorted) rather than one of the early limit returns. -/
def searchCollect (py : Option Pinyin) (st : IndexState) (q : Str) (lim : Int)
    (cat : Option Str) : List SearchResult × Bool :=
  if q = [] then ([], false)
  else
    let filt := catFilterOf st cat
    let rs1 := layer1 st q (lowerStr q) filt
    if lim ≤ (rs1.length : Int) then (rs1, false)
    else
      let rs2 := stagePre st q filt lim rs1
      if lim ≤ (rs2.length : Int) then (rs2, false)
      else
        let rs3 := stageBigram st q filt lim rs2
        let rs4 := stageChar st q filt lim rs3
        if lim ≤ (rs4.length : Int) then (rs4, false)
        else
          let rs5 := stagePinyin py st q filt lim rs4
          if lim ≤ (rs5.length : Int) then (rs5, false)
          else (stageFuzzy st q filt lim rs5, true)

/-- FastProductIndex.search: early returns slice the unsorted collected list; the final
return sorts by descending score before slicing. -/
def search (py : Option Pinyin) (st : IndexState) (q : Str) (lim : Int) (cat : Option Str) :
    List SearchResult :=
  match searchCollect py st q lim cat with
  | (rs, false) => pySliceTo rs lim
  | (rs, true) => pySliceTo (sortByScoreDesc rs) lim

/-- Suggestion text for empty input. -/
def msgEmpty : Str := "输入为空".toList

/-- Suggestion text when nothing matched. -/
def msgNotFound (t : Str) : Str := "「".toList ++ t ++ "」未在商品库中找到".toList

/-- Suggestion text flagging a matched product without a price. -/
def msgNoPrice (n : Str) : Str := "⚠️ 商品「".toList ++ n ++ "」无价格".toList

/-- Rendering of a price; stands in for Python float formatting, which no verified
property depends on. -/
def ratStr (x : ℚ) : Str := (toString x).toList

/-- Correction suggestion of the form raw to canonical with a price annotation. -/
def msgArrow (t n : Str) (price : ℚ) (unit : Str) : Str :=
  "「".toList ++ t ++ "」→「".toList ++ n ++ "」".toList ++
    (if price = 0 then " (无价格)".toList
     else if 0 < price then " (".toList ++ unit ++ "/¥".toList ++ ratStr price ++ ")".toList
     else [])

/-- Join candidate names with a comma separator. -/
def joinComma (l : List Str) : Str := (l.intersperse ", ".toList).flatten

/-- Suggestion text listing close candidates. -/
def msgAmbig (t : Str) (cands : List Str) : Str :=
  "「".toList ++ t ++ "」可能是: ".toList ++ joinComma cands

/-- The body of FastProductIndex.calibrate after raw_text has been reassigned to its
stripped form t: search with limit 5, then apply the decision policy. -/
def calibrateStripped (py : Option Pinyin) (st : IndexState) (t : Str) (cat : Option Str) :
    CalibrationResult :=
  let results := search py st t 5 cat
  match results with
    | [] => ⟨t, t, none, 0, tagNotFound, some (msgNotFound t), false, []⟩
    | top1 :: rest =>
      let p := top1.product
      if top1.match_type = tagExact ∧ (99/100 : ℚ) ≤ top1.score then
        ⟨t, p.name, some p, top1.score, top1.match_type,
          if p.price = 0 then some (msgNoPrice p.name) else none, false, []⟩
      else
        let sugg := if t ≠ p.name then some (msgArrow t p.name p.price p.unit) else none
        match rest with
        | [] => ⟨t, p.name, some p, top1.score, top1.match_type, sugg, false, []⟩
        | top2 :: _ =>
          if top1.score - top2.score < 15/100 then
            let cands := ((top1 :: rest).take 3).map (fun r => r.product.name)
            ⟨t, p.name, some p, top1.score, top1.match_type, some (msgAmbig t cands), true, cands⟩
          else ⟨t, p.name, some p, top1.score, top1.match_type, sugg, false, []⟩

/-- FastProductIndex.calibrate: empty or whitespace-only input short-circuits; any
other input is stripped and handed to the decision policy. -/
def calibrate (py : Option Pinyin) (st : IndexState) (raw : Str) (cat : Option Str) :
    CalibrationResult :=
  if raw = [] ∨ pystrip raw = [] then
    ⟨raw, raw, none, 0, tagNone, some msgEmpty, false, []⟩
  else calibrateStripped py st (pystrip raw) cat

/-- FastProductIndex.batch_calibrate. -/
def batchCalibrate (py : Option Pinyin) (st : IndexState) (texts : List Str)
    (cat : Option Str) : List CalibrationResult :=
  texts.map (fun t => calibrate py st t cat)

/-- A catalog row with only the fields relevant to concrete test states filled in. -/
def cxProd (i : Int) (code name cat : Str) : Product :=
  mkProduct none i code name cat [] [] [] 0 [] [] [] []

/-- Test catalog: a product whose lowercased name and another product whose code both
equal the query string. -/
def cxStateA : IndexState :=
  buildIndex [cxProd 1 [] ("AB".toList) [], cxProd 2 ("ab".toList) ("q".toList) []]

/-- Test catalog: one long name starting with the query and four short names containing it. -/
def cxStateB : IndexState :=
  buildIndex [cxProd 1 [] ("bcdefghijklmnopqrstu".toList) [],
    cxProd 2 [] ("abc".toList) [], cxProd 3 [] ("xbc".toList) [],
    cxProd 4 [] ("ybc".toList) [], cxProd 5 [] ("zbc".toList) []]

/-- Test catalog: one product whose name contains the query characters but not the
query itself nor any of its bigrams. -/
def cxStateC : IndexState := buildIndex [cxProd 1 [] ("abcde".toList) []]

/-- Test catalog: an id match and a code match for the same digit query, where the
code-matched product has the shorter name and the lower id. -/
def cxStateD : IndexState :=
  buildIndex [cxProd 7 [] ("zzz".toList) [], cxProd 2 ("7".toList) ("q".toList) []]

/-- Test catalog: a single product registered under category x. -/
def cxStateE : IndexState := buildIndex [cxProd 1 [] ("ab".toList) ("x".toList)]

/-- Test catalog: one product with id 1. -/
def cxStateF1 : IndexState := addProduct emptyIndex (cxProd 1 [] ("aa".toList) [])

/-- Test catalog after adding a second, different product with the same id 1. -/
def cxStateF2 : IndexState := addProduct cxStateF1 (cxProd 1 [] ("bb".toList) [])

/-- The fact add_result guarantees about the category filter for any appended result:
when a truthy filter set is present, the product id belongs to it. -/
def FiltOK (filt : Option (List Int)) (p : Product) : Prop :=
  ∀ fs, filt = some fs → fs ≠ [] → p.id ∈ fs

/-- Characterisation of the results layer 1 can append. -/
def L1Site (st : IndexState) (q ql : Str) (r : SearchResult) : Prop :=
  (∃ p, dlookup st.by_name q = some p ∧ r = ⟨p, 1, tagExact, fldName⟩) ∨
  (∃ p, dlookup st.by_name_lower ql = some p ∧ r = ⟨p, 99/100, tagExact, fldName⟩) ∨
  (∃ p, dlookup st.by_id (digitsToInt q) = some p ∧ r = ⟨p, 1, tagExact, fldId⟩) ∨
  (∃ p, dlookup st.by_code q = some p ∧ r = ⟨p, 1, tagExact, fldCode⟩)

/-- Characterisation of the (product, score, match_type, matched_field) tuples the
tier loops of layers 2 to 5 can pass to add_result. -/
def TS (st : IndexState) (q : Str) (p : Product) (s : ℚ) (mt fl : Str) : Prop :=
  (∃ pid, dlookup st.products pid = some p ∧
    s = min (19/20 : ℚ)
      (7/10 + (if p.name ≠ [] then (q.length : ℚ) / (p.name.length : ℚ) else 0) * (1/4)) ∧
    mt = tagPre ∧ fl = fldName) ∨
  (∃ pid, dlookup st.products pid = some p ∧ q <:+: p.name ∧
    s = min (9/10 : ℚ) (1/2 + (q.length : ℚ) / (p.name.length : ℚ) * (2/5)) ∧
    mt = tagCont ∧ fl = fldName) ∨
  (∃ pid, dlookup st.products pid = some p ∧
    s = min (7/10 : ℚ) ((q.length : ℚ) / (p.name.length : ℚ) * (3/5)) ∧
    mt = tagCont ∧ fl = fldName) ∨
  (∃ pid qp, dlookup st.products pid = some p ∧
    s = min (4/5 : ℚ)
      (2/5 + (if p.name_pinyin ≠ [] then ((qp : Str).length : ℚ) / (p.name_pinyin.length : ℚ) else 0) * (2/5)) ∧
    mt = tagPy ∧ fl = fldPy) ∨
  (∃ pid, dlookup st.products pid = some p ∧ s = 1/2 ∧ mt = tagPy ∧ fl = fldInit) ∨
  (∃ pid, dlookup st.products pid = some p ∧ 0 < max q.length p.name.length ∧
    (1 : ℚ)/2 < 1 - (levenshtein q p.name : ℚ) / ((max q.length p.name.length : ℕ) : ℚ) ∧
    s = (1 - (levenshtein q p.name : ℚ) / ((max q.length p.name.length : ℕ) : ℚ)) * (7/10) ∧
    mt = tagFuzzy ∧ fl = fldName)

/-- A search result together with its tier characterisation. -/
def SiteOf (st : IndexState) (q : Str) (r : SearchResult) : Prop :=
  TS st q r.product r.score r.match_type r.matched_field

/-- All products reachable through the five lookup dicts satisfy P. -/
def MapsP (P : Product → Prop) (st : IndexState) : Prop :=
  (∀ (k : Str) (p : Product), dlookup st.by_name k = some p → P p) ∧
  (∀ (k : Str) (p : Product), dlookup st.by_name_lower k = some p → P p) ∧
  (∀ (k : Int) (p : Product), dlookup st.by_id k = some p → P p) ∧
  (∀ (k : Str) (p : Product), dlookup st.by_code k = some p → P p) ∧
  (∀ (k : Int) (p : Product), dlookup st.products k = some p → P p)

/-- Every category bucket is nonempty and its ids satisfy Q at that category. -/
def CatP (Q : Int → Str → Prop) (st : IndexState) : Prop :=
  ∀ (c : Str) (ids : List Int), dlookup st.by_category c = some ids →
    ids ≠ [] ∧ ∀ i ∈ ids, Q i c

/-- C2, failing input: with a lowercased-name match (score 0.99) followed by a code
match (score 1.0) and limit 2, the early return after layer 1 skips the final sort and
the result list is not in non-increasing score order. -/
theorem c2_early_return_unsorted :
    (search none cxStateA ("ab".toList) 2 none).map (fun r => r.score) = [99/100, 1] ∧
    ((99 : ℚ)/100 < 1) := by
  decide

/-- C3, counterexample: searching with an unregistered category leaves the filter off,
so the only result belongs to a different category than the one requested. -/
theorem c3_counterexample :
    (search none cxStateE ("ab".toList) 5 (some ("y".toList))).map
      (fun r => r.product.category) = [("x".toList : Str)] ∧
    ("x".toList : Str) ≠ ("y".toList : Str) := by
  decide

/-- C4, counterexample: an ambiguous calibration whose candidates list is the head of
an early-returned, unsorted result list; the first candidate has a strictly lower score
than the second, so candidates are not the top results ordered by score. -/
theorem c4_counterexample :
    (calibrate none cxStateB ("bc".toList) none).is_ambiguous = true ∧
    (calibrate none cxStateB ("bc".toList) none).candidates =
      ((search none cxStateB ("bc".toList) 5 none).take 3).map (fun r => r.product.name) ∧
    (search none cxStateB ("bc".toList) 5 none).map (fun r => r.score) =
      [29/40, 23/30, 23/30, 23/30, 23/30] ∧
    ((29 : ℚ)/40 < 23/30) := by
  decide

/-- C5, counterexample: a result produced by the loosened single-character fallback
carries match_type contains with score 6/25 = 0.24, strictly below 0.50. -/
theorem c5_counterexample :
    (search none cxStateC ("ba".toList) 5 none).map (fun r => (r.score, r.match_type)) =
      [(6/25, tagCont)] ∧ ((6 : ℚ)/25 < 1/2) := by
  decide

/-- C6, counterexample: two results tie at score 1.0 and the product with the longer
name and the higher id is returned first, so ties are not broken by shorter name or
lower id. -/
theorem c6_counterexample :
    (search none cxStateD ("7".toList) 5 none).map (fun r => (r.product.id, r.score)) =
      [(7, 1), (2, 1)] ∧
    (dlookup cxStateD.products 2).map (fun p => p.name.length) = some 1 ∧
    (dlookup cxStateD.products 7).map (fun p => p.name.length) = some 3 := by
  decide

/-- C7, counterexample: adding a second product with an already-registered id is not
rejected; it overwrites the per-id entry and still increments total_count. -/
theorem c7_counterexample :
    dlookup cxStateF2.products 1 = some (cxProd 1 [] ("bb".toList) []) ∧
    cxStateF2.total_count = 2 ∧ cxStateF1.total_count = 1 ∧
    dlookup cxStateF2.products 1 ≠ dlookup cxStateF1.products 1 := by
  decide

/-- Python slices l[:n] only ever drop elements. -/
theorem pySliceTo_sublist {α : Type} (l : List α) (n : Int) : List.Sublist (pySliceTo l n) l := by
  unfold pySliceTo
  split
  · exact List.take_sublist _ _
  · exact List.take_sublist _ _

/-- Membership through a Python slice. -/
theorem mem_pySliceTo {α : Type} {l : List α} {n : Int} {x : α} (h : x ∈ pySliceTo l n) :
    x ∈ l :=
  (pySliceTo_sublist l n).mem h

/-- A slice with a positive bound keeps the head. -/
theorem pySliceTo_head {α : Type} (a : α) (l : List α) {n : Int} (h : 1 ≤ n) :
    (pySliceTo (a :: l) n).head? = some a := by
  unfold pySliceTo
  rw [if_pos (le_trans (by norm_num) h)]
  have h1 : 1 ≤ n.toNat := by omega
  obtain ⟨m, hm⟩ : ∃ m, n.toNat = m + 1 := ⟨n.toNat - 1, by omega⟩
  rw [hm]
  rfl

/-- add_result either leaves the list unchanged or appends the new result at the end,
and an appended result passed a truthy category filter. -/
theorem addResult_eq_or_append (filt : Option (List Int)) (rs : List SearchResult)
    (p : Product) (s : ℚ) (mt fl : Str) :
    addResult filt rs p s mt fl = rs ∨
      (addResult filt rs p s mt fl = rs ++ [⟨p, s, mt, fl⟩] ∧ FiltOK filt p) := by
  unfold addResult
  split
  · exact Or.inl rfl
  · split
    · exact Or.inl rfl
    · rename_i hblock
      refine Or.inr ⟨rfl, ?_⟩
      intro fs hfs hne
      rw [hfs] at hblock
      simp only [Option.getD_some] at hblock
      by_contra hid
      exact hblock ⟨hne, hid⟩

/-- Membership after add_result: an element is old, or it is the appended result. -/
theorem mem_addResult {filt : Option (List Int)} {rs : List SearchResult} {p : Product}
    {s : ℚ} {mt fl : Str} {r : SearchResult} (h : r ∈ addResult filt rs p s mt fl) :
    r ∈ rs ∨ (r = ⟨p, s, mt, fl⟩ ∧ FiltOK filt p) := by
  rcases addResult_eq_or_append filt rs p s mt fl with heq | ⟨heq, hok⟩
  · rw [heq] at h
    exact Or.inl h
  · rw [heq] at h
    rcases List.mem_append.1 h with h1 | h1
    · exact Or.inl h1
    · exact Or.inr ⟨List.mem_singleton.1 h1, hok⟩

/-- add_result preserves the no-duplicate-ids invariant: the guard refuses any product
whose id is already present. -/
theorem addResult_distinct {filt : Option (List Int)} {rs : List SearchResult}
    {p : Product} {s : ℚ} {mt fl : Str}
    (h : rs.Pairwise (fun a b => a.product.id ≠ b.product.id)) :
    (addResult filt rs p s mt fl).Pairwise (fun a b => a.product.id ≠ b.product.id) := by
  unfold addResult
  split
  · exact h
  · rename_i hany
    have hnot : ∀ r ∈ rs, r.product.id ≠ p.id := by
      intro r hr
      intro hcon
      exact hany (List.any_eq_true.2 ⟨r, hr, by simp [hcon]⟩)
    split
    · exact h
    · rw [List.pairwise_append]
      refine ⟨h, List.pairwise_singleton _ _, ?_⟩
      intro a ha b hb
      rw [List.mem_singleton.1 hb]
      exact hnot a ha

/-- A tier loop preserves any list property that is stable under add_result. -/
theorem tierLoop_pres {P : List SearchResult → Prop} {filt : Option (List Int)} {lim : Int}
    {step : Int → Option (Product × ℚ × Str × Str)}
    (hAdd : ∀ rs p s mt fl, (∃ x, step x = some (p, s, mt, fl)) → P rs →
      P (addResult filt rs p s mt fl)) :
    ∀ (xs : List Int) (rs : List SearchResult), P rs → P (tierLoop filt lim step xs rs)
  | [], rs, h => h
  | x :: rest, rs, h => by
    unfold tierLoop
    split
    · exact h
    · match hx : step x with
      | none => exact tierLoop_pres hAdd rest rs h
      | some (p, s, mt, fl) =>
        exact tierLoop_pres hAdd rest _ (hAdd rs p s mt fl ⟨x, hx⟩ h)

/-- Membership after a tier loop: an element is old or was produced by the step
function and passed the filter. -/
theorem mem_tierLoop {filt : Option (List Int)} {lim : Int}
    {step : Int → Option (Product × ℚ × Str × Str)} :
    ∀ {xs : List Int} {rs : List SearchResult} {r : SearchResult},
      r ∈ tierLoop filt lim step xs rs →
      r ∈ rs ∨ ∃ p s mt fl, (∃ x, step x = some (p, s, mt, fl)) ∧
        r = ⟨p, s, mt, fl⟩ ∧ FiltOK filt p
  | [], _, _, h => Or.inl h
  | x :: rest, rs, r, h => by
    rw [tierLoop] at h
    split at h
    · exact Or.inl h
    · revert h
      match hx : step x with
      | none => exact fun h => mem_tierLoop h
      | some (p, s, mt, fl) =>
        intro h
        rcases mem_tierLoop h with h1 | h1
        · rcases mem_addResult h1 with h2 | ⟨h2, hok⟩
          · exact Or.inl h2
          · exact Or.inr ⟨p, s, mt, fl, ⟨x, hx⟩, h2, hok⟩
        · exact Or.inr h1

/-- The fuzzy add loop preserves any list property stable under add_result. -/
theorem fuzzyAddLoop_pres {P : List SearchResult → Prop} {filt : Option (List Int)}
    (hAdd : ∀ rs p s mt fl, P rs → P (addResult filt rs p s mt fl)) :
    ∀ (ps : List (Product × ℚ)) (rs : List SearchResult), P rs →
      P (fuzzyAddLoop filt ps rs)
  | [], _, h => h
  | (p, s) :: rest, rs, h =>
    fuzzyAddLoop_pres hAdd rest _ (hAdd rs p s tagFuzzy fldName h)

/-- Membership after the fuzzy add loop. -/
theorem mem_fuzzyAddLoop {filt : Option (List Int)} :
    ∀ {ps : List (Product × ℚ)} {rs : List SearchResult} {r : SearchResult},
      r ∈ fuzzyAddLoop filt ps rs →
      r ∈ rs ∨ ∃ p s, (p, s) ∈ ps ∧ r = ⟨p, s, tagFuzzy, fldName⟩ ∧ FiltOK filt p
  | [], _, _, h => Or.inl h
  | (p, s) :: rest, rs, r, h => by
    rw [fuzzyAddLoop] at h
    rcases mem_fuzzyAddLoop h with h1 | ⟨p', s', hmem, heq, hok⟩
    · rcases mem_addResult h1 with h2 | ⟨h2, hok⟩
      · exact Or.inl h2
      · exact Or.inr ⟨p, s, List.mem_cons_self _ _, h2, hok⟩
    · exact Or.inr ⟨p', s', List.mem_cons_of_mem _ hmem, heq, hok⟩

/-- Membership in a stable descending insertion. -/
theorem mem_resIns {a x : SearchResult} : ∀ {l : List SearchResult},
    x ∈ resIns a l ↔ x = a ∨ x ∈ l
  | [] => by simp [resIns]
  | b :: t => by
    unfold resIns
    split
    · rw [List.mem_cons, mem_resIns]
      simp only [List.mem_cons]
      tauto
    · simp only [List.mem_cons]

/-- A stable descending insertion is a permutation of consing. -/
theorem resIns_perm (a : SearchResult) : ∀ (l : List SearchResult), List.Perm (resIns a l) (a :: l)
  | [] => List.Perm.refl _
  | b :: t => by
    unfold resIns
    split
    · exact ((resIns_perm a t).cons b).trans (List.Perm.swap a b t)
    · exact List.Perm.refl _

/-- The final sort is a permutation of its input. -/
theorem sortByScoreDesc_perm : ∀ (l : List SearchResult), List.Perm (sortByScoreDesc l) l
  | [] => List.Perm.refl _
  | a :: t => by
    unfold sortByScoreDesc
    exact (resIns_perm a (sortByScoreDesc t)).trans ((sortByScoreDesc_perm t).cons a)

/-- Membership through the final sort. -/
theorem mem_sortByScoreDesc {x : SearchResult} {l : List SearchResult} :
    x ∈ sortByScoreDesc l ↔ x ∈ l :=
  (sortByScoreDesc_perm l).mem_iff

/-- Inserting keeps a descending list descending. -/
theorem resIns_pairwise {a : SearchResult} : ∀ {l : List SearchResult},
    l.Pairwise (fun x y => y.score ≤ x.score) →
    (resIns a l).Pairwise (fun x y => y.score ≤ x.score)
  | [], _ => List.pairwise_singleton _ _
  | b :: t, h => by
    unfold resIns
    rw [List.pairwise_cons] at h
    split
    · rename_i hab
      rw [List.pairwise_cons]
      refine ⟨?_, resIns_pairwise h.2⟩
      intro x hx
      rcases mem_resIns.1 hx with rfl | hx
      · exact le_of_lt hab
      · exact h.1 x hx
    · rename_i hab
      rw [not_lt] at hab
      rw [List.pairwise_cons]
      refine ⟨?_, List.pairwise_cons.2 h⟩
      intro x hx
      rcases List.mem_cons.1 hx with rfl | hx
      · exact hab
      · exact (h.1 x hx).trans hab

/-- The final sort produces a list in non-increasing score order. -/
theorem sortByScoreDesc_pairwise : ∀ (l : List SearchResult),
    (sortByScoreDesc l).Pairwise (fun x y => y.score ≤ x.score)
  | [] => List.Pairwise.nil
  | _ :: t => resIns_pairwise (sortByScoreDesc_pairwise t)

/-- Inserting an element that is not outscored leaves it in front: with a maximal head
the stable sort keeps the head first. -/
theorem resIns_front {a : SearchResult} {l : List SearchResult}
    (h : ∀ x ∈ l, x.score ≤ a.score) : resIns a l = a :: l := by
  cases l with
  | nil => rfl
  | cons b t =>
    unfold resIns
    rw [if_neg (not_lt.2 (h b (List.mem_cons_self _ _)))]

/-- Equal-score elements are never reordered by the stable insertion: the filter at any
fixed score commutes with it. -/
theorem resIns_filter (s : ℚ) (a : SearchResult) : ∀ (l : List SearchResult),
    (resIns a l).filter (fun r => decide (r.score = s)) =
      if a.score = s then a :: l.filter (fun r => decide (r.score = s))
      else l.filter (fun r => decide (r.score = s))
  | [] => by
    by_cases ha : a.score = s <;> simp [resIns, List.filter, ha]
  | b :: t => by
    unfold resIns
    split
    · rename_i hab
      by_cases ha : a.score = s
      · have hb : ¬ b.score = s := by
          intro hbs
          rw [ha] at hab
          rw [hbs] at hab
          exact lt_irrefl s hab
        rw [if_pos ha]
        simp only [List.filter_cons]
        rw [resIns_filter s a t]
        rw [if_pos ha]
        simp [hb]
      · rw [if_neg ha]
        simp only [List.filter_cons]
        rw [resIns_filter s a t]
        rw [if_neg ha]
    · by_cases ha : a.score = s
      · rw [if_pos ha]
        simp [List.filter_cons, ha]
      · rw [if_neg ha]
        simp [List.filter_cons, ha]

/-- The final sort never reorders equal-score elements: filtering at any fixed score
gives back the original subsequence. -/
theorem sortByScoreDesc_filter (s : ℚ) : ∀ (l : List SearchResult),
    (sortByScoreDesc l).filter (fun r => decide (r.score = s)) =
      l.filter (fun r => decide (r.score = s))
  | [] => rfl
  | a :: t => by
    unfold sortByScoreDesc
    rw [resIns_filter s a (sortByScoreDesc t), sortByScoreDesc_filter s t]
    by_cases ha : a.score = s
    · rw [if_pos ha]
      simp [List.filter_cons, ha]
    · rw [if_neg ha]
      simp [List.filter_cons, ha]

/-- Membership in the pair insertion. -/
theorem mem_pairIns {a x : Product × ℚ} : ∀ {l : List (Product × ℚ)},
    x ∈ pairIns a l ↔ x = a ∨ x ∈ l
  | [] => by simp [pairIns]
  | b :: t => by
    unfold pairIns
    split
    · rw [List.mem_cons, mem_pairIns]
      simp only [List.mem_cons]
      tauto
    · simp only [List.mem_cons]

/-- Membership through the fuzzy pair sort. -/
theorem mem_pairSortDesc {x : Product × ℚ} : ∀ {l : List (Product × ℚ)},
    x ∈ pairSortDesc l ↔ x ∈ l
  | [] => Iff.rfl
  | a :: t => by
    unfold pairSortDesc
    rw [mem_pairIns, mem_pairSortDesc]
    simp only [List.mem_cons]

/-- Characterisation of the layer-1 name step. -/
theorem mem_l1name {st : IndexState} {q ql : Str} {filt : Option (List Int)}
    {r : SearchResult} (h : r ∈ l1name st q ql filt) :
    L1Site st q ql r ∧ FiltOK filt r.product := by
  unfold l1name at h
  rcases h1 : dlookup st.by_name q with _ | p
  · rw [h1] at h
    rcases h2 : dlookup st.by_name_lower ql with _ | p
    · rw [h2] at h
      exact absurd h (List.not_mem_nil r)
    · rw [h2] at h
      rcases mem_addResult h with h3 | ⟨rfl, hok⟩
      · exact absurd h3 (List.not_mem_nil r)
      · exact ⟨Or.inr (Or.inl ⟨p, h2, rfl⟩), hok⟩
  · rw [h1] at h
    rcases mem_addResult h with h3 | ⟨rfl, hok⟩
    · exact absurd h3 (List.not_mem_nil r)
    · exact ⟨Or.inl ⟨p, h1, rfl⟩, hok⟩

/-- Characterisation of the layer-1 digit step. -/
theorem mem_l1digit {st : IndexState} {q : Str} {filt : Option (List Int)}
    {rs : List SearchResult} {r : SearchResult} (h : r ∈ l1digit st q filt rs) :
    r ∈ rs ∨ ((∃ p, dlookup st.by_id (digitsToInt q) = some p ∧
      r = ⟨p, 1, tagExact, fldId⟩) ∧ FiltOK filt r.product) := by
  unfold l1digit at h
  split at h
  · rcases h1 : dlookup st.by_id (digitsToInt q) with _ | p
    · rw [h1] at h
      exact Or.inl h
    · rw [h1] at h
      rcases mem_addResult h with h3 | ⟨rfl, hok⟩
      · exact Or.inl h3
      · exact Or.inr ⟨⟨p, rfl, rfl⟩, hok⟩
  · exact Or.inl h

/-- Characterisation of the layer-1 code step. -/
theorem mem_l1code {st : IndexState} {q : Str} {filt : Option (List Int)}
    {rs : List SearchResult} {r : SearchResult} (h : r ∈ l1code st q filt rs) :
    r ∈ rs ∨ ((∃ p, dlookup st.by_code q = some p ∧
      r = ⟨p, 1, tagExact, fldCode⟩) ∧ FiltOK filt r.product) := by
  unfold l1code at h
  rcases h1 : dlookup st.by_code q with _ | p
  · rw [h1] at h
    exact Or.inl h
  · rw [h1] at h
    rcases mem_addResult h with h3 | ⟨rfl, hok⟩
    · exact Or.inl h3
    · exact Or.inr ⟨⟨p, rfl, rfl⟩, hok⟩

/-- Every layer-1 result is an exact match from one of the four lookups and passed the
category filter. -/
theorem mem_layer1 {st : IndexState} {q ql : Str} {filt : Option (List Int)}
    {r : SearchResult} (h : r ∈ layer1 st q ql filt) :
    L1Site st q ql r ∧ FiltOK filt r.product := by
  unfold layer1 at h
  rcases mem_l1code h with h1 | ⟨⟨p, hp, rfl⟩, hok⟩
  · rcases mem_l1digit h1 with h2 | ⟨⟨p, hp, rfl⟩, hok⟩
    · exact mem_l1name h2
    · exact ⟨Or.inr (Or.inr (Or.inl ⟨p, hp, rfl⟩)), hok⟩
  · exact ⟨Or.inr (Or.inr (Or.inr ⟨p, hp, rfl⟩)), hok⟩

/-- Unpacking the layer-2 step function. -/
theorem stepPre_site {st : IndexState} {q : Str} {pid : Int} {p : Product} {s : ℚ}
    {mt fl : Str} (h : stepPre st q pid = some (p, s, mt, fl)) :
    dlookup st.products pid = some p ∧
      s = min (19/20 : ℚ)
        (7/10 + (if p.name ≠ [] then (q.length : ℚ) / (p.name.length : ℚ) else 0) * (1/4)) ∧
      mt = tagPre ∧ fl = fldName := by
  unfold stepPre at h
  rcases hp : dlookup st.products pid with _ | p'
  · rw [hp] at h
    exact absurd h (by simp)
  · rw [hp] at h
    simp only [Option.map_some', Option.some.injEq, Prod.mk.injEq] at h
    obtain ⟨h1, h2, h3, h4⟩ := h
    subst h1 h2 h3 h4
    exact ⟨rfl, rfl, rfl, rfl⟩

/-- Unpacking the layer-3 bigram step function. -/
theorem stepBigram_site {st : IndexState} {q : Str} {pid : Int} {p : Product} {s : ℚ}
    {mt fl : Str} (h : stepBigram st q pid = some (p, s, mt, fl)) :
    dlookup st.products pid = some p ∧ q <:+: p.name ∧
      s = min (9/10 : ℚ) (1/2 + (q.length : ℚ) / (p.name.length : ℚ) * (2/5)) ∧
      mt = tagCont ∧ fl = fldName := by
  unfold stepBigram at h
  rcases hp : dlookup st.products pid with _ | p'
  · rw [hp] at h
    exact absurd h (by simp)
  · rw [hp] at h
    simp only [Option.some_bind] at h
    split at h
    · rename_i hinf
      simp only [Option.some.injEq, Prod.mk.injEq] at h
      obtain ⟨h1, h2, h3, h4⟩ := h
      subst h1 h2 h3 h4
      exact ⟨rfl, hinf, rfl, rfl, rfl⟩
    · exact absurd h (by simp)

/-- Unpacking the layer-3 single-character step function. -/
theorem stepChar_site {st : IndexState} {q : Str} {pid : Int} {p : Product} {s : ℚ}
    {mt fl : Str} (h : stepChar st q pid = some (p, s, mt, fl)) :
    dlookup st.products pid = some p ∧
      s = min (7/10 : ℚ) ((q.length : ℚ) / (p.name.length : ℚ) * (3/5)) ∧
      mt = tagCont ∧ fl = fldName := by
  unfold stepChar at h
  rcases hp : dlookup st.products pid with _ | p'
  · rw [hp] at h
    exact absurd h (by simp)
  · rw [hp] at h
    simp only [Option.map_some', Option.some.injEq, Prod.mk.injEq] at h
    obtain ⟨h1, h2, h3, h4⟩ := h
    subst h1 h2 h3 h4
    exact ⟨rfl, rfl, rfl, rfl⟩

/-- Unpacking the layer-4 transliteration step function. -/
theorem stepPy_site {st : IndexState} {qp : Str} {pid : Int} {p : Product} {s : ℚ}
    {mt fl : Str} (h : stepPy st qp pid = some (p, s, mt, fl)) :
    dlookup st.products pid = some p ∧
      s = min (4/5 : ℚ)
        (2/5 + (if p.name_pinyin ≠ [] then (qp.length : ℚ) / (p.name_pinyin.length : ℚ) else 0) * (2/5)) ∧
      mt = tagPy ∧ fl = fldPy := by
  unfold stepPy at h
  rcases hp : dlookup st.products pid with _ | p'
  · rw [hp] at h
    exact absurd h (by simp)
  · rw [hp] at h
    simp only [Option.map_some', Option.some.injEq, Prod.mk.injEq] at h
    obtain ⟨h1, h2, h3, h4⟩ := h
    subst h1 h2 h3 h4
    exact ⟨rfl, rfl, rfl, rfl⟩

/-- Unpacking the layer-4 initials step function. -/
theorem stepInit_site {st : IndexState} {pid : Int} {p : Product} {s : ℚ}
    {mt fl : Str} (h : stepInit st pid = some (p, s, mt, fl)) :
    dlookup st.products pid = some p ∧ s = 1/2 ∧ mt = tagPy ∧ fl = fldInit := by
  unfold stepInit at h
  rcases hp : dlookup st.products pid with _ | p'
  · rw [hp] at h
    exact absurd h (by simp)
  · rw [hp] at h
    simp only [Option.map_some', Option.some.injEq, Prod.mk.injEq] at h
    obtain ⟨h1, h2, h3, h4⟩ := h
    subst h1 h2 h3 h4
    exact ⟨rfl, rfl, rfl, rfl⟩

/-- Every result added by layer 2 comes from the products map with the layer-2 score. -/
theorem mem_stagePre {st : IndexState} {q : Str} {filt : Option (List Int)} {lim : Int}
    {rs : List SearchResult} {r : SearchResult} (h : r ∈ stagePre st q filt lim rs) :
    r ∈ rs ∨ (SiteOf st q r ∧ FiltOK filt r.product) := by
  unfold stagePre at h
  rcases mem_tierLoop h with h1 | ⟨p, s, mt, fl, ⟨x, hx⟩, rfl, hok⟩
  · exact Or.inl h1
  · obtain ⟨hp, hs, hmt, hfl⟩ := stepPre_site hx
    exact Or.inr ⟨Or.inl ⟨x, hp, hs, hmt, hfl⟩, hok⟩

/-- Every result added by the bigram block comes from a contains match. -/
theorem mem_stageBigram {st : IndexState} {q : Str} {filt : Option (List Int)} {lim : Int}
    {rs : List SearchResult} {r : SearchResult} (h : r ∈ stageBigram st q filt lim rs) :
    r ∈ rs ∨ (SiteOf st q r ∧ FiltOK filt r.product) := by
  unfold stageBigram at h
  split at h
  · split at h
    · exact Or.inl h
    · rcases mem_tierLoop h with h1 | ⟨p, s, mt, fl, ⟨x, hx⟩, rfl, hok⟩
      · exact Or.inl h1
      · obtain ⟨hp, hinf, hs, hmt, hfl⟩ := stepBigram_site hx
        exact Or.inr ⟨Or.inr (Or.inl ⟨x, hp, hinf, hs, hmt, hfl⟩), hok⟩
  · exact Or.inl h

/-- Every result added by the single-character block comes from a loosened contains
match. -/
theorem mem_stageChar {st : IndexState} {q : Str} {filt : Option (List Int)} {lim : Int}
    {rs : List SearchResult} {r : SearchResult} (h : r ∈ stageChar st q filt lim rs) :
    r ∈ rs ∨ (SiteOf st q r ∧ FiltOK filt r.product) := by
  unfold stageChar at h
  split at h
  · simp only at h
    split at h
    · split at h
      · exact Or.inl h
      · rcases mem_tierLoop h with h1 | ⟨p, s, mt, fl, ⟨x, hx⟩, rfl, hok⟩
        · exact Or.inl h1
        · obtain ⟨hp, hs, hmt, hfl⟩ := stepChar_site hx
          exact Or.inr ⟨Or.inr (Or.inr (Or.inl ⟨x, hp, hs, hmt, hfl⟩)), hok⟩
    · exact Or.inl h
  · exact Or.inl h

/-- Every result added by the phonetic layer comes from a pinyin match. -/
theorem mem_stagePinyin {py : Option Pinyin} {st : IndexState} {q : Str}
    {filt : Option (List Int)} {lim : Int} {rs : List SearchResult} {r : SearchResult}
    (h : r ∈ stagePinyin py st q filt lim rs) :
    r ∈ rs ∨ (SiteOf st q r ∧ FiltOK filt r.product) := by
  unfold stagePinyin at h
  match py with
  | none => exact Or.inl h
  | some f =>
    have hfull : ∀ {rs' : List SearchResult},
        r ∈ tierLoop filt lim (stepPy st ((f q).flatten)) (trieWalk st.pinyin_trie ((f q).flatten)) rs' →
        r ∈ rs' ∨ (SiteOf st q r ∧ FiltOK filt r.product) := by
      intro rs' h'
      rcases mem_tierLoop h' with h1 | ⟨p, s, mt, fl, ⟨x, hx⟩, rfl, hok⟩
      · exact Or.inl h1
      · obtain ⟨hp, hs, hmt, hfl⟩ := stepPy_site hx
        exact Or.inr ⟨Or.inr (Or.inr (Or.inr (Or.inl ⟨x, (f q).flatten, hp, hs, hmt, hfl⟩))), hok⟩
    simp only at h
    split at h
    · rcases mem_tierLoop h with h1 | ⟨p, s, mt, fl, ⟨x, hx⟩, rfl, hok⟩
      · exact hfull h1
      · obtain ⟨hp, hs, hmt, hfl⟩ := stepInit_site hx
        exact Or.inr ⟨Or.inr (Or.inr (Or.inr (Or.inr (Or.inl ⟨x, hp, hs, hmt, hfl⟩)))), hok⟩
    · exact hfull h

/-- Every pair produced by the fuzzy search is a product whose name passed the
similarity threshold, scored at 0.7 times the similarity. -/
theorem mem_fuzzySearch {st : IndexState} {q : Str} {flim : Int} {filt : Option (List Int)}
    {p : Product} {s : ℚ} (h : (p, s) ∈ fuzzySearch st q flim filt) :
    ∃ pid, dlookup st.products pid = some p ∧ 0 < max q.length p.name.length ∧
      (1 : ℚ)/2 < 1 - (levenshtein q p.name : ℚ) / ((max q.length p.name.length : ℕ) : ℚ) ∧
      s = (1 - (levenshtein q p.name : ℚ) / ((max q.length p.name.length : ℕ) : ℚ)) * (7/10) := by
  unfold fuzzySearch at h
  have h1 := mem_pairSortDesc.1 (mem_pySliceTo h)
  obtain ⟨pid, hmem, heq⟩ := List.mem_filterMap.1 h1
  rcases hp : dlookup st.products pid with _ | p'
  · rw [hp] at heq
    exact absurd heq (by simp)
  · rw [hp] at heq
    simp only [Option.some_bind] at heq
    split at heq
    · rename_i hml
      split at heq
      · rename_i hsim
        simp only [Option.some.injEq, Prod.mk.injEq] at heq
        obtain ⟨h2, h3⟩ := heq
        subst h2 h3
        exact ⟨pid, hp, hml, hsim, rfl⟩
      · exact absurd heq (by simp)
    · exact absurd heq (by simp)

/-- Every result added by the fuzzy layer comes from a fuzzy match. -/
theorem mem_stageFuzzy {st : IndexState} {q : Str} {filt : Option (List Int)} {lim : Int}
    {rs : List SearchResult} {r : SearchResult} (h : r ∈ stageFuzzy st q filt lim rs) :
    r ∈ rs ∨ (SiteOf st q r ∧ FiltOK filt r.product) := by
  unfold stageFuzzy at h
  split at h
  · rcases mem_fuzzyAddLoop h with h1 | ⟨p, s, hmem, rfl, hok⟩
    · exact Or.inl h1
    · obtain ⟨pid, hp, hml, hsim, hs⟩ := mem_fuzzySearch hmem
      exact Or.inr ⟨Or.inr (Or.inr (Or.inr (Or.inr (Or.inr ⟨pid, hp, hml, hsim, hs, rfl, rfl⟩)))), hok⟩
  · exact Or.inl h

/-- Master membership lemma: every collected result is a layer-1 exact match or a
tier match, and, in either case, passed the category filter. -/
theorem mem_searchCollect {py : Option Pinyin} {st : IndexState} {q : Str} {lim : Int}
    {cat : Option Str} {r : SearchResult} (h : r ∈ (searchCollect py st q lim cat).1) :
    (L1Site st q (lowerStr q) r ∨ SiteOf st q r) ∧
      FiltOK (catFilterOf st cat) r.product := by
  unfold searchCollect at h
  by_cases hq : q = []
  · rw [if_pos hq] at h
    exact absurd h (List.not_mem_nil r)
  · rw [if_neg hq] at h
    simp only at h
    split at h
    · obtain ⟨h1, h2⟩ := mem_layer1 h
      exact ⟨Or.inl h1, h2⟩
    · split at h
      · rcases mem_stagePre h with h1 | ⟨hsite, hok⟩
        · obtain ⟨h2, h3⟩ := mem_layer1 h1
          exact ⟨Or.inl h2, h3⟩
        · exact ⟨Or.inr hsite, hok⟩
      · split at h
        · rcases mem_stageChar h with h1 | ⟨hsite, hok⟩
          · rcases mem_stageBigram h1 with h2 | ⟨hsite, hok⟩
            · rcases mem_stagePre h2 with h3 | ⟨hsite, hok⟩
              · obtain ⟨h4, h5⟩ := mem_layer1 h3
                exact ⟨Or.inl h4, h5⟩
              · exact ⟨Or.inr hsite, hok⟩
            · exact ⟨Or.inr hsite, hok⟩
          · exact ⟨Or.inr hsite, hok⟩
        · split at h
          · rcases mem_stagePinyin h with h1 | ⟨hsite, hok⟩
            · rcases mem_stageChar h1 with h2 | ⟨hsite, hok⟩
              · rcases mem_stageBigram h2 with h3 | ⟨hsite, hok⟩
                · rcases mem_stagePre h3 with h4 | ⟨hsite, hok⟩
                  · obtain ⟨h5, h6⟩ := mem_layer1 h4
                    exact ⟨Or.inl h5, h6⟩
                  · exact ⟨Or.inr hsite, hok⟩
                · exact ⟨Or.inr hsite, hok⟩
              · exact ⟨Or.inr hsite, hok⟩
            · exact ⟨Or.inr hsite, hok⟩
          · rcases mem_stageFuzzy h with h1 | ⟨hsite, hok⟩
            · rcases mem_stagePinyin h1 with h2 | ⟨hsite, hok⟩
              · rcases mem_stageChar h2 with h3 | ⟨hsite, hok⟩
                · rcases mem_stageBigram h3 with h4 | ⟨hsite, hok⟩
                  · rcases mem_stagePre h4 with h5 | ⟨hsite, hok⟩
                    · obtain ⟨h6, h7⟩ := mem_layer1 h5
                      exact ⟨Or.inl h6, h7⟩
                    · exact ⟨Or.inr hsite, hok⟩
                  · exact ⟨Or.inr hsite, hok⟩
                · exact ⟨Or.inr hsite, hok⟩
              · exact ⟨Or.inr hsite, hok⟩
            · exact ⟨Or.inr hsite, hok⟩

/-- Membership in search output implies membership in the collected list. -/
theorem mem_search {py : Option Pinyin} {st : IndexState} {q : Str} {lim : Int}
    {cat : Option Str} {r : SearchResult} (h : r ∈ search py st q lim cat) :
    r ∈ (searchCollect py st q lim cat).1 := by
  unfold search at h
  rcases hsc : searchCollect py st q lim cat with ⟨rs, b⟩
  rw [hsc] at h
  cases b
  · exact mem_pySliceTo h
  · exact mem_sortByScoreDesc.1 (mem_pySliceTo h)

/-- Every search result is a layer-1 exact match or a tier match that passed the
category filter. -/
theorem search_site {py : Option Pinyin} {st : IndexState} {q : Str} {lim : Int}
    {cat : Option Str} {r : SearchResult} (h : r ∈ search py st q lim cat) :
    (L1Site st q (lowerStr q) r ∨ SiteOf st q r) ∧
      FiltOK (catFilterOf st cat) r.product :=
  mem_searchCollect (mem_search h)

/-- Collecting over an empty query does nothing. -/
theorem searchCollect_nil (py : Option Pinyin) (st : IndexState) (lim : Int)
    (cat : Option Str) : searchCollect py st [] lim cat = ([], false) := by
  unfold searchCollect
  rw [if_pos rfl]

/-- Searching an empty query returns the empty list. -/
theorem search_nil (py : Option Pinyin) (st : IndexState) (lim : Int) (cat : Option Str) :
    search py st [] lim cat = [] := by
  unfold search
  rw [searchCollect_nil]
  show pySliceTo [] lim = []
  unfold pySliceTo
  split <;> simp

/-- Layer 2 preserves properties stable under add_result. -/
theorem stagePre_pres {P : List SearchResult → Prop} {st : IndexState} {q : Str}
    {filt : Option (List Int)} {lim : Int} {rs : List SearchResult}
    (hAdd : ∀ rs' p s mt fl, P rs' → P (addResult filt rs' p s mt fl)) (h : P rs) :
    P (stagePre st q filt lim rs) :=
  tierLoop_pres (fun rs' p s mt fl _ => hAdd rs' p s mt fl) _ _ h

/-- The bigram block preserves properties stable under add_result. -/
theorem stageBigram_pres {P : List SearchResult → Prop} {st : IndexState} {q : Str}
    {filt : Option (List Int)} {lim : Int} {rs : List SearchResult}
    (hAdd : ∀ rs' p s mt fl, P rs' → P (addResult filt rs' p s mt fl)) (h : P rs) :
    P (stageBigram st q filt lim rs) := by
  unfold stageBigram
  split
  · rcases hsets : (bigrams q).filterMap (fun b => dlookup st.bigram_index b) with _ | ⟨s0, srest⟩
    · exact h
    · exact tierLoop_pres (fun rs' p s mt fl _ => hAdd rs' p s mt fl) _ _ h
  · exact h

/-- The single-character block preserves properties stable under add_result. -/
theorem stageChar_pres {P : List SearchResult → Prop} {st : IndexState} {q : Str}
    {filt : Option (List Int)} {lim : Int} {rs : List SearchResult}
    (hAdd : ∀ rs' p s mt fl, P rs' → P (addResult filt rs' p s mt fl)) (h : P rs) :
    P (stageChar st q filt lim rs) := by
  unfold stageChar
  dsimp only
  split
  · split
    · rcases hcs : q.map (fun c => (dlookup st.char_index c).getD []) with _ | ⟨s0, srest⟩
      · exact h
      · exact tierLoop_pres (fun rs' p s mt fl _ => hAdd rs' p s mt fl) _ _ h
    · exact h
  · exact h

/-- The phonetic layer preserves properties stable under add_result. -/
theorem stagePinyin_pres {P : List SearchResult → Prop} {py : Option Pinyin}
    {st : IndexState} {q : Str} {filt : Option (List Int)} {lim : Int}
    {rs : List SearchResult}
    (hAdd : ∀ rs' p s mt fl, P rs' → P (addResult filt rs' p s mt fl)) (h : P rs) :
    P (stagePinyin py st q filt lim rs) := by
  unfold stagePinyin
  match py with
  | none => exact h
  | some f =>
    dsimp only
    have h1 : P (tierLoop filt lim (stepPy st ((f q).flatten))
        (trieWalk st.pinyin_trie ((f q).flatten)) rs) :=
      tierLoop_pres (fun rs' p s mt fl _ => hAdd rs' p s mt fl) _ _ h
    split
    · exact tierLoop_pres (fun rs' p s mt fl _ => hAdd rs' p s mt fl) _ _ h1
    · exact h1

/-- The fuzzy layer preserves properties stable under add_result. -/
theorem stageFuzzy_pres {P : List SearchResult → Prop} {st : IndexState} {q : Str}
    {filt : Option (List Int)} {lim : Int} {rs : List SearchResult}
    (hAdd : ∀ rs' p s mt fl, P rs' → P (addResult filt rs' p s mt fl)) (h : P rs) :
    P (stageFuzzy st q filt lim rs) := by
  unfold stageFuzzy
  split
  · exact fuzzyAddLoop_pres (fun rs' p s mt fl => hAdd rs' p s mt fl) _ _ h
  · exact h

/-- Master preservation lemma: any property of the result list that holds after
layer 1 and is stable under add_result holds for the collected list at every
return point of search. -/
theorem collect_pres {py : Option Pinyin} {st : IndexState} {q : Str} {lim : Int}
    {cat : Option Str} (P : List SearchResult → Prop) (hq : q ≠ [])
    (hP1 : P (layer1 st q (lowerStr q) (catFilterOf st cat)))
    (hAdd : ∀ rs p s mt fl, P rs → P (addResult (catFilterOf st cat) rs p s mt fl)) :
    P (searchCollect py st q lim cat).1 := by
  unfold searchCollect
  rw [if_neg hq]
  simp only
  split
  · exact hP1
  · split
    · exact stagePre_pres hAdd hP1
    · split
      · exact stageChar_pres hAdd (stageBigram_pres hAdd (stagePre_pres hAdd hP1))
      · split
        · exact stagePinyin_pres hAdd
            (stageChar_pres hAdd (stageBigram_pres hAdd (stagePre_pres hAdd hP1)))
        · exact stageFuzzy_pres hAdd (stagePinyin_pres hAdd
            (stageChar_pres hAdd (stageBigram_pres hAdd (stagePre_pres hAdd hP1))))

/-- The layer-1 name step has pairwise distinct product ids. -/
theorem l1name_distinct {st : IndexState} {q ql : Str} {filt : Option (List Int)} :
    (l1name st q ql filt).Pairwise (fun a b => a.product.id ≠ b.product.id) := by
  unfold l1name
  rcases dlookup st.by_name q with _ | p
  · rcases dlookup st.by_name_lower ql with _ | p
    · exact List.Pairwise.nil
    · exact addResult_distinct List.Pairwise.nil
  · exact addResult_distinct List.Pairwise.nil

/-- The layer-1 digit step preserves pairwise distinct product ids. -/
theorem l1digit_distinct {st : IndexState} {q : Str} {filt : Option (List Int)}
    {rs : List SearchResult}
    (h : rs.Pairwise (fun a b => a.product.id ≠ b.product.id)) :
    (l1digit st q filt rs).Pairwise (fun a b => a.product.id ≠ b.product.id) := by
  unfold l1digit
  split
  · rcases dlookup st.by_id (digitsToInt q) with _ | p
    · exact h
    · exact addResult_distinct h
  · exact h

/-- The layer-1 code step preserves pairwise distinct product ids. -/
theorem l1code_distinct {st : IndexState} {q : Str} {filt : Option (List Int)}
    {rs : List SearchResult}
    (h : rs.Pairwise (fun a b => a.product.id ≠ b.product.id)) :
    (l1code st q filt rs).Pairwise (fun a b => a.product.id ≠ b.product.id) := by
  unfold l1code
  rcases dlookup st.by_code q with _ | p
  · exact h
  · exact addResult_distinct h

/-- The layer-1 list has pairwise distinct product ids. -/
theorem layer1_distinct {st : IndexState} {q ql : Str} {filt : Option (List Int)} :
    (layer1 st q ql filt).Pairwise (fun a b => a.product.id ≠ b.product.id) :=
  l1code_distinct (l1digit_distinct l1name_distinct)

/-- C9: a search result list never contains two results for the same product id; the
add_result guard keeps only the first (highest-priority) tier that matched an entity. -/
theorem c9_no_duplicate_ids (py : Option Pinyin) (st : IndexState) (q : Str) (lim : Int)
    (cat : Option Str) :
    (search py st q lim cat).Pairwise (fun a b => a.product.id ≠ b.product.id) := by
  by_cases hq : q = []
  · subst hq
    rw [search_nil]
    exact List.Pairwise.nil
  · have hcol := @collect_pres py st q lim cat
      (fun l => l.Pairwise (fun a b => a.product.id ≠ b.product.id)) hq
      layer1_distinct (fun rs p s mt fl h => addResult_distinct h)
    unfold search
    rcases hsc : searchCollect py st q lim cat with ⟨rs, b⟩
    rw [hsc] at hcol
    cases b
    · exact List.Pairwise.sublist (pySliceTo_sublist _ _) hcol
    · refine List.Pairwise.sublist (pySliceTo_sublist _ _) ?_
      refine ((sortByScoreDesc_perm rs).pairwise_iff ?_).2 hcol
      intro a b h
      exact Ne.symm h

/-- add_result on the empty list with no filter registers the result. -/
theorem addResult_none_nil (p : Product) (s : ℚ) (mt fl : Str) :
    addResult none [] p s mt fl = [⟨p, s, mt, fl⟩] := by
  simp [addResult]

/-- Starting from a fixed head, add_result only ever appends, keeping the head. -/
theorem addResult_cons_pres {r0 : SearchResult} {filt : Option (List Int)}
    {rs : List SearchResult} (h : ∃ tl, rs = r0 :: tl) (p : Product) (s : ℚ) (mt fl : Str) :
    ∃ tl, addResult filt rs p s mt fl = r0 :: tl := by
  obtain ⟨tl, rfl⟩ := h
  rcases addResult_eq_or_append filt (r0 :: tl) p s mt fl with heq | ⟨heq, _⟩
  · exact ⟨tl, heq⟩
  · exact ⟨tl ++ [⟨p, s, mt, fl⟩], by rw [heq]; simp⟩

/-- The layer-1 digit step preserves properties stable under add_result. -/
theorem l1digit_pres {P : List SearchResult → Prop} {st : IndexState} {q : Str}
    {filt : Option (List Int)} {rs : List SearchResult}
    (hAdd : ∀ rs' p s mt fl, P rs' → P (addResult filt rs' p s mt fl)) (h : P rs) :
    P (l1digit st q filt rs) := by
  unfold l1digit
  split
  · rcases dlookup st.by_id (digitsToInt q) with _ | p
    · exact h
    · exact hAdd _ _ _ _ _ h
  · exact h

/-- The layer-1 code step preserves properties stable under add_result. -/
theorem l1code_pres {P : List SearchResult → Prop} {st : IndexState} {q : Str}
    {filt : Option (List Int)} {rs : List SearchResult}
    (hAdd : ∀ rs' p s mt fl, P rs' → P (addResult filt rs' p s mt fl)) (h : P rs) :
    P (l1code st q filt rs) := by
  unfold l1code
  rcases dlookup st.by_code q with _ | p
  · exact h
  · exact hAdd _ _ _ _ _ h

/-- Every score a search tier can produce is at most 1. -/
theorem site_score_le_one {st : IndexState} {q ql : Str} {r : SearchResult}
    (h : L1Site st q ql r ∨ SiteOf st q r) : r.score ≤ 1 := by
  rcases h with h | h
  · rcases h with ⟨p, _, rfl⟩ | ⟨p, _, rfl⟩ | ⟨p, _, rfl⟩ | ⟨p, _, rfl⟩ <;> norm_num
  · rcases h with ⟨pid, _, hs, _, _⟩ | ⟨pid, _, _, hs, _, _⟩ | ⟨pid, _, hs, _, _⟩ |
      ⟨pid, qp, _, hs, _, _⟩ | ⟨pid, _, hs, _, _⟩ | ⟨pid, _, hml, hsim, hs, _, _⟩
    · rw [hs]
      exact le_trans (min_le_left _ _) (by norm_num)
    · rw [hs]
      exact le_trans (min_le_left _ _) (by norm_num)
    · rw [hs]
      exact le_trans (min_le_left _ _) (by norm_num)
    · rw [hs]
      exact le_trans (min_le_left _ _) (by norm_num)
    · rw [hs]
      norm_num
    · rw [hs]
      have h0 : (0 : ℚ) ≤ (levenshtein q r.product.name : ℚ) /
          ((max q.length r.product.name.length : ℕ) : ℚ) :=
        div_nonneg (Nat.cast_nonneg _) (Nat.cast_nonneg _)
      nlinarith

/-- C1: searching the canonical name registered in by_name (no category filter,
positive limit) returns that product first, as an exact name match with score 1,
and every other result scores at most 1, so no lower tier outranks it. -/
theorem c1_exact_name_first (py : Option Pinyin) (st : IndexState) (n : Str) (lim : Int)
    (p : Product) (hname : dlookup st.by_name n = some p) (hn : n ≠ []) (hlim : 1 ≤ lim) :
    (search py st n lim none).head? = some ⟨p, 1, tagExact, fldName⟩ ∧
      ∀ r ∈ search py st n lim none, r.score ≤ 1 := by
  have hfiltnone : catFilterOf st none = none := rfl
  have hl1name : l1name st n (lowerStr n) (catFilterOf st none) =
      [⟨p, 1, tagExact, fldName⟩] := by
    unfold l1name
    rw [hname, hfiltnone]
    exact addResult_none_nil p 1 tagExact fldName
  have hP1 : ∃ tl, layer1 st n (lowerStr n) (catFilterOf st none) =
      (⟨p, 1, tagExact, fldName⟩ : SearchResult) :: tl := by
    unfold layer1
    exact @l1code_pres (fun l => ∃ tl, l = (⟨p, 1, tagExact, fldName⟩ : SearchResult) :: tl)
      st n (catFilterOf st none) _
      (fun rs' p' s mt fl h => addResult_cons_pres h p' s mt fl)
      (@l1digit_pres (fun l => ∃ tl, l = (⟨p, 1, tagExact, fldName⟩ : SearchResult) :: tl)
        st n (catFilterOf st none) _
        (fun rs' p' s mt fl h => addResult_cons_pres h p' s mt fl) ⟨[], hl1name⟩)
  have hcol := @collect_pres py st n lim none
    (fun l => ∃ tl, l = (⟨p, 1, tagExact, fldName⟩ : SearchResult) :: tl) hn hP1
    (fun rs p' s mt fl h => addResult_cons_pres h p' s mt fl)
  have hbound : ∀ r ∈ (searchCollect py st n lim none).1, r.score ≤ 1 :=
    fun r hr => site_score_le_one (mem_searchCollect hr).1
  unfold search
  rcases hsc : searchCollect py st n lim none with ⟨rs, b⟩
  rw [hsc] at hcol hbound
  obtain ⟨tl, rfl⟩ := hcol
  cases b
  · exact ⟨pySliceTo_head _ _ hlim, fun r hr => hbound r (mem_pySliceTo hr)⟩
  · have hfront : sortByScoreDesc ((⟨p, 1, tagExact, fldName⟩ : SearchResult) :: tl) =
        (⟨p, 1, tagExact, fldName⟩ : SearchResult) :: sortByScoreDesc tl := by
      show resIns _ (sortByScoreDesc tl) = _
      apply resIns_front
      intro x hx
      exact hbound x (List.mem_cons_of_mem _ (mem_sortByScoreDesc.1 hx))
    constructor
    · show (pySliceTo (sortByScoreDesc
        ((⟨p, 1, tagExact, fldName⟩ : SearchResult) :: tl)) lim).head? = _
      rw [hfront]
      exact pySliceTo_head _ _ hlim
    · intro r hr
      exact hbound r (mem_sortByScoreDesc.1 (mem_pySliceTo hr))

/-- C1 witness: in a concrete one-product catalog the registered name comes back
first as an exact match with score 1. -/
theorem c1_exact_name_first_witness :
    (search none cxStateC ("abcde".toList) 5 none).head? =
      some ⟨cxProd 1 [] ("abcde".toList) [], 1, tagExact, fldName⟩ ∧
      (1 : ℚ) ≤ 1 := by
  refine ⟨(c1_exact_name_first none cxStateC ("abcde".toList) 5
    (cxProd 1 [] ("abcde".toList) []) (by decide) (by decide) (by decide)).1, le_refl 1⟩

/-- A lookup in a one-entry dict can only return that entry. -/
theorem dlookup_singleton {K V : Type} [DecidableEq K] {k0 k : K} {v0 v : V}
    (h : dlookup [(k0, v0)] k = some v) : v = v0 := by
  unfold dlookup at h
  by_cases hk : k0 = k
  · simp [List.find?, hk] at h
    exact h.symm
  · simp [List.find?, hk] at h

/-- C5 amended: every search result tagged contains has a positive score of at most
0.90 (the bigram tier actually stays above 0.50, but the loosened single-character
fallback can go arbitrarily low, bounded by 0.70), provided every indexed product has
a nonempty name. -/
theorem c5_contains_score_bounds (py : Option Pinyin) (st : IndexState) (q : Str)
    (lim : Int) (cat : Option Str)
    (hnames : ∀ (k : Int) (p : Product), dlookup st.products k = some p → p.name ≠ []) :
    ∀ r ∈ search py st q lim cat, r.match_type = tagCont →
      0 < r.score ∧ r.score ≤ 9/10 := by
  intro r hr hmt
  by_cases hq : q = []
  · subst hq
    rw [search_nil] at hr
    exact absurd hr (List.not_mem_nil r)
  · obtain ⟨hsite, _⟩ := search_site hr
    rcases hsite with h | h
    · exfalso
      rcases h with ⟨p, _, rfl⟩ | ⟨p, _, rfl⟩ | ⟨p, _, rfl⟩ | ⟨p, _, rfl⟩ <;>
        exact absurd (show tagExact = tagCont from hmt) (by decide)
    · rcases h with ⟨pid, hp, hs, hmtag, _⟩ | ⟨pid, hp, hinf, hs, _, _⟩ |
        ⟨pid, hp, hs, _, _⟩ | ⟨pid, qp, hp, hs, hmtag, _⟩ | ⟨pid, hp, hs, hmtag, _⟩ |
        ⟨pid, hp, hml, hsim, hs, hmtag, _⟩
      · rw [hmtag] at hmt
        exact absurd hmt (by decide)
      · have h0 : (0 : ℚ) ≤ (q.length : ℚ) / (r.product.name.length : ℚ) :=
          div_nonneg (Nat.cast_nonneg _) (Nat.cast_nonneg _)
        constructor
        · rw [hs]
          apply lt_min
          · norm_num
          · nlinarith
        · rw [hs]
          exact min_le_left _ _
      · have hqpos : (0 : ℚ) < (q.length : ℚ) := by
          have := List.length_pos.2 hq
          exact_mod_cast this
        have hnpos : (0 : ℚ) < (r.product.name.length : ℚ) := by
          have := List.length_pos.2 (hnames pid r.product hp)
          exact_mod_cast this
        constructor
        · rw [hs]
          apply lt_min
          · norm_num
          · have := div_pos hqpos hnpos
            nlinarith
        · rw [hs]
          exact le_trans (min_le_left _ _) (by norm_num)
      · rw [hmtag] at hmt
        exact absurd hmt (by decide)
      · rw [hmtag] at hmt
        exact absurd hmt (by decide)
      · rw [hmtag] at hmt
        exact absurd hmt (by decide)

/-- C5 witness: the concrete loosened-fallback result of score 6/25 satisfies the
amended bounds, with the nonempty-name hypothesis discharged for the test catalog. -/
theorem c5_contains_score_bounds_witness :
    (search none cxStateC ("ba".toList) 5 none).head? =
      some ⟨cxProd 1 [] ("abcde".toList) [], 6/25, tagCont, fldName⟩ ∧
    (0 : ℚ) < 6/25 ∧ (6 : ℚ)/25 ≤ 9/10 := by
  have hnames : ∀ (k : Int) (p : Product), dlookup cxStateC.products k = some p →
      p.name ≠ [] := by
    intro k p h
    rw [show cxStateC.products = [(1, cxProd 1 [] ("abcde".toList) [])] from by decide] at h
    rw [dlookup_singleton h]
    decide
  have hmem : (⟨cxProd 1 [] ("abcde".toList) [], 6/25, tagCont, fldName⟩ : SearchResult) ∈
      search none cxStateC ("ba".toList) 5 none := by decide
  have hb := c5_contains_score_bounds none cxStateC ("ba".toList) 5 none hnames _ hmem
    (by decide)
  exact ⟨by decide, hb.1, hb.2⟩

/-- C6 amended: whenever search reaches its final sort, the returned list is in
non-increasing score order, and on every return path the results at any fixed score
keep the original collection order (the sort is stable) — ties are not reordered by
name length or entity id. -/
theorem c6_order_stable (py : Option Pinyin) (st : IndexState) (q : Str) (lim : Int)
    (cat : Option Str) :
    ((searchCollect py st q lim cat).2 = true →
      (search py st q lim cat).Pairwise (fun a b => b.score ≤ a.score)) ∧
    ∀ s : ℚ, List.Sublist
      ((search py st q lim cat).filter (fun r => decide (r.score = s)))
      (((searchCollect py st q lim cat).1).filter (fun r => decide (r.score = s))) := by
  unfold search
  rcases hsc : searchCollect py st q lim cat with ⟨rs, b⟩
  cases b
  · constructor
    · intro hb
      exact absurd hb (by simp)
    · intro s
      exact List.Sublist.filter _ (pySliceTo_sublist rs lim)
  · constructor
    · intro _
      exact List.Pairwise.sublist (pySliceTo_sublist _ _) (sortByScoreDesc_pairwise rs)
    · intro s
      have h1 := List.Sublist.filter (fun r => decide (r.score = s))
        (pySliceTo_sublist (sortByScoreDesc rs) lim)
      rw [sortByScoreDesc_filter] at h1
      exact h1

/-- C6 witness: the concrete tied catalog reaches the final sort and comes back in
non-increasing score order. -/
theorem c6_order_stable_witness :
    (searchCollect none cxStateD ("7".toList) 5 none).2 = true ∧
    (search none cxStateD ("7".toList) 5 none).Pairwise (fun a b => b.score ≤ a.score) :=
  ⟨by decide, (c6_order_stable none cxStateD ("7".toList) 5 none).1 (by decide)⟩

/-- A string of whitespace strips to nothing. -/
theorem pystrip_nil {s : Str} (h : ∀ c ∈ s, isPySpace c = true) : pystrip s = [] := by
  unfold pystrip
  rw [List.dropWhile_eq_nil_iff.2 h]
  simp

/-- C8: calibrating empty or all-whitespace input returns the empty-input result:
original and calibrated echo the input, no product, confidence 0, not ambiguous, no
candidates, and the suggestion says the input is empty; being a total function it
never raises. -/
theorem c8_empty_input (py : Option Pinyin) (st : IndexState) (cat : Option Str)
    (raw : Str) (h : ∀ c ∈ raw, isPySpace c = true) :
    calibrate py st raw cat = ⟨raw, raw, none, 0, tagNone, some msgEmpty, false, []⟩ := by
  unfold calibrate
  rw [if_pos (Or.inr (pystrip_nil h))]

/-- C8 witness: a concrete whitespace input produces exactly the empty-input result. -/
theorem c8_empty_input_witness :
    calibrate none cxStateC [' ', '\t'] none =
      ⟨[' ', '\t'], [' ', '\t'], none, 0, tagNone, some msgEmpty, false, []⟩ :=
  c8_empty_input none cxStateC none [' ', '\t'] (by decide)

/-- Dropping a satisfied run twice is the same as dropping it once. -/
theorem dropWhile_dropWhile {α : Type} (p : α → Bool) : ∀ (l : List α),
    (l.dropWhile p).dropWhile p = l.dropWhile p
  | [] => rfl
  | a :: t => by
    by_cases ha : p a
    · rw [List.dropWhile_cons_of_pos ha]
      exact dropWhile_dropWhile p t
    · rw [List.dropWhile_cons_of_neg ha, List.dropWhile_cons_of_neg ha]

/-- An element that fails the predicate survives dropWhile. -/
theorem mem_dropWhile_of_neg {α : Type} {p : α → Bool} {x : α} : ∀ {l : List α},
    x ∈ l → p x = false → x ∈ l.dropWhile p
  | [], h, _ => absurd h (List.not_mem_nil x)
  | a :: t, h, hx => by
    by_cases ha : p a
    · rw [List.dropWhile_cons_of_pos ha]
      rcases List.mem_cons.1 h with rfl | h1
      · rw [hx] at ha
        exact absurd ha (by simp)
      · exact mem_dropWhile_of_neg h1 hx
    · rw [List.dropWhile_cons_of_neg ha]
      exact h

/-- The head surviving dropWhile fails the predicate. -/
theorem dropWhile_head_neg {α : Type} {p : α → Bool} : ∀ {l : List α} {a : α} {t : List α},
    l.dropWhile p = a :: t → p a = false
  | [], _, _, h => by simp at h
  | x :: xs, a, t, h => by
    by_cases hx : p x
    · rw [List.dropWhile_cons_of_pos hx] at h
      exact dropWhile_head_neg h
    · rw [List.dropWhile_cons_of_neg hx] at h
      cases h
      rcases hpx : p x with _ | _
      · rfl
      · exact absurd hpx hx

/-- Stripping leaves the front of the left-stripped string untouched, so stripping is
idempotent. -/
theorem pystrip_idem (s : Str) : pystrip (pystrip s) = pystrip s := by
  unfold pystrip
  have hstep1 :
      ((s.dropWhile isPySpace).reverse.dropWhile isPySpace).reverse.dropWhile isPySpace =
        ((s.dropWhile isPySpace).reverse.dropWhile isPySpace).reverse := by
    rcases hC : ((s.dropWhile isPySpace).reverse.dropWhile isPySpace).reverse with _ | ⟨b, t⟩
    · rfl
    · have hpre : ((s.dropWhile isPySpace).reverse.dropWhile isPySpace).reverse <+:
          s.dropWhile isPySpace := by
        have h1 : ((s.dropWhile isPySpace).reverse.dropWhile isPySpace) <:+
            (s.dropWhile isPySpace).reverse := List.dropWhile_suffix isPySpace
        have h2 := List.reverse_prefix.2 h1
        rwa [List.reverse_reverse] at h2
      rw [hC] at hpre
      obtain ⟨u, hu⟩ := hpre
      have hps : s.dropWhile isPySpace = b :: (t ++ u) := by
        rw [← hu]
        simp
      have hpb : isPySpace b = false := dropWhile_head_neg hps
      exact List.dropWhile_cons_of_neg (by simp [hpb])
  rw [hstep1, List.reverse_reverse, dropWhile_dropWhile]

/-- A string with a non-whitespace character does not strip to nothing. -/
theorem pystrip_ne_nil {s : Str} (h : ∃ c ∈ s, isPySpace c = false) : pystrip s ≠ [] := by
  obtain ⟨c, hc, hcs⟩ := h
  have h1 : c ∈ s.dropWhile isPySpace := mem_dropWhile_of_neg hc hcs
  have h2 : c ∈ (s.dropWhile isPySpace).reverse.dropWhile isPySpace :=
    mem_dropWhile_of_neg (List.mem_reverse.2 h1) hcs
  have h3 : c ∈ pystrip s := by
    unfold pystrip
    exact List.mem_reverse.2 h2
  intro hnil
  rw [hnil] at h3
  exact absurd h3 (List.not_mem_nil c)

/-- The post-strip calibration body always echoes its input in the original field. -/
theorem calibrateStripped_original (py : Option Pinyin) (st : IndexState) (t : Str)
    (cat : Option Str) : (calibrateStripped py st t cat).original = t := by
  unfold calibrateStripped
  dsimp only
  split
  · rfl
  · split
    · rfl
    · split
      · rfl
      · split <;> rfl

/-- C10: calibration is invariant under surrounding whitespace — an input with any
non-whitespace character gives the same result as its stripped form, and the result
echoes the stripped text in its original field. -/
theorem c10_strip_invariant (py : Option Pinyin) (st : IndexState) (cat : Option Str)
    (raw : Str) (h : ∃ c ∈ raw, isPySpace c = false) :
    calibrate py st raw cat = calibrate py st (pystrip raw) cat ∧
      (calibrate py st raw cat).original = pystrip raw := by
  have hne : pystrip raw ≠ [] := pystrip_ne_nil h
  have hraw : raw ≠ [] := by
    rintro rfl
    obtain ⟨c, hc, _⟩ := h
    exact absurd hc (List.not_mem_nil c)
  have hidem : pystrip (pystrip raw) = pystrip raw := pystrip_idem raw
  have hguard1 : ¬(raw = [] ∨ pystrip raw = []) := by
    rintro (h1 | h2)
    · exact hraw h1
    · exact hne h2
  have hguard2 : ¬(pystrip raw = [] ∨ pystrip (pystrip raw) = []) := by
    rw [hidem]
    rintro (h1 | h2)
    · exact hne h1
    · exact hne h2
  constructor
  · unfold calibrate
    rw [if_neg hguard1, if_neg hguard2, hidem]
  · unfold calibrate
    rw [if_neg hguard1]
    exact calibrateStripped_original py st (pystrip raw) cat

/-- C10 witness: a concrete padded input calibrates identically to its stripped form
and records the stripped text as original. -/
theorem c10_strip_invariant_witness :
    calibrate none cxStateC (" abcde ".toList) none =
      calibrate none cxStateC (pystrip (" abcde ".toList)) none ∧
    (calibrate none cxStateC (" abcde ".toList) none).original =
      pystrip (" abcde ".toList) :=
  c10_strip_invariant none cxStateC none (" abcde ".toList) ⟨'a', by decide, by decide⟩

/-- The ambiguity decision of the post-strip calibration body: candidates are the
names of the first up to 3 search results in returned order, and ambiguity holds
exactly when the top result is not an exact match scoring at least 0.99, a second
result exists, and the first two scores are closer than 0.15. -/
theorem calibrateStripped_ambiguity (py : Option Pinyin) (st : IndexState) (t : Str)
    (cat : Option Str) :
    ((calibrateStripped py st t cat).is_ambiguous = true →
      2 ≤ (calibrateStripped py st t cat).candidates.length ∧
      (calibrateStripped py st t cat).candidates.length ≤ 3 ∧
      (calibrateStripped py st t cat).candidates =
        ((search py st t 5 cat).take 3).map (fun r => r.product.name)) ∧
    ((calibrateStripped py st t cat).is_ambiguous = true ↔
      ∃ a b rest, search py st t 5 cat = a :: b :: rest ∧
        ¬(a.match_type = tagExact ∧ (99/100 : ℚ) ≤ a.score) ∧
        a.score - b.score < 15/100) := by
  unfold calibrateStripped
  dsimp only
  rcases hs : search py st t 5 cat with _ | ⟨top1, rest⟩
  · refine ⟨fun h => absurd h (by simp), ?_, ?_⟩
    · intro h
      exact absurd h (by simp)
    · rintro ⟨a, b, rest', heq, _, _⟩
      exact absurd heq (by simp)
  · dsimp only
    by_cases hex : top1.match_type = tagExact ∧ (99/100 : ℚ) ≤ top1.score
    · rw [if_pos hex]
      refine ⟨fun h => absurd h (by simp), ?_, ?_⟩
      · intro h
        exact absurd h (by simp)
      · rintro ⟨a, b, rest', heq, hnex, _⟩
        injection heq with h1 h2
        subst h1
        exact absurd hex hnex
    · rw [if_neg hex]
      rcases rest with _ | ⟨top2, rest2⟩
      · dsimp only
        refine ⟨fun h => absurd h (by simp), ?_, ?_⟩
        · intro h
          exact absurd h (by simp)
        · rintro ⟨a, b, rest', heq, _, _⟩
          simp at heq
      · dsimp only
        by_cases hd : top1.score - top2.score < 15/100
        · rw [if_pos hd]
          refine ⟨?_, ?_, ?_⟩
          · intro _
            refine ⟨?_, ?_, rfl⟩
            · simp [List.length_take]
            · simp [List.length_take]
          · intro _
            exact ⟨top1, top2, rest2, rfl, hex, hd⟩
          · intro _
            rfl
        · rw [if_neg hd]
          refine ⟨fun h => absurd h (by simp), ?_, ?_⟩
          · intro h
            exact absurd h (by simp)
          · rintro ⟨a, b, rest', heq, hnex, hd'⟩
            injection heq with h1 h2
            injection h2 with h2a h2b
            subst h1
            subst h2a
            exact absurd hd' hd

/-- C4 amended: an ambiguous calibration carries between 2 and 3 candidates, the
canonical names of the first up to 3 search results in the order search returned
them (score-ordered only when search reached its final sort); ambiguity holds
exactly when the input is not blank, the top result is not an exact match with
score at least 0.99, a second result exists, and the top-two score gap is below
the 0.15 threshold. -/
theorem c4_ambiguity (py : Option Pinyin) (st : IndexState) (raw : Str)
    (cat : Option Str) :
    ((calibrate py st raw cat).is_ambiguous = true →
      2 ≤ (calibrate py st raw cat).candidates.length ∧
      (calibrate py st raw cat).candidates.length ≤ 3 ∧
      (calibrate py st raw cat).candidates =
        ((search py st (pystrip raw) 5 cat).take 3).map (fun r => r.product.name)) ∧
    ((calibrate py st raw cat).is_ambiguous = true ↔
      ¬(raw = [] ∨ pystrip raw = []) ∧
      ∃ a b rest, search py st (pystrip raw) 5 cat = a :: b :: rest ∧
        ¬(a.match_type = tagExact ∧ (99/100 : ℚ) ≤ a.score) ∧
        a.score - b.score < 15/100) := by
  by_cases hg : raw = [] ∨ pystrip raw = []
  · unfold calibrate
    rw [if_pos hg]
    refine ⟨fun h => absurd h (by simp), ?_, ?_⟩
    · intro h
      exact absurd h (by simp)
    · rintro ⟨hng, _⟩
      exact absurd hg hng
  · unfold calibrate
    rw [if_neg hg]
    obtain ⟨h1, h2⟩ := calibrateStripped_ambiguity py st (pystrip raw) cat
    refine ⟨h1, ?_⟩
    rw [h2]
    constructor
    · intro h
      exact ⟨hg, h⟩
    · rintro ⟨_, h⟩
      exact h

/-- C4 witness: the concrete ambiguous calibration has exactly 3 candidates, the
names of the first 3 results in returned order. -/
theorem c4_ambiguity_witness :
    (calibrate none cxStateB ("bc".toList) none).is_ambiguous = true ∧
    2 ≤ (calibrate none cxStateB ("bc".toList) none).candidates.length ∧
    (calibrate none cxStateB ("bc".toList) none).candidates.length ≤ 3 ∧
    (calibrate none cxStateB ("bc".toList) none).candidates =
      ((search none cxStateB (pystrip ("bc".toList)) 5 none).take 3).map
        (fun r => r.product.name) :=
  ⟨by decide, (c4_ambiguity none cxStateB ("bc".toList) none).1 (by decide)⟩

/-- Looking up the key just put in front. -/
theorem dlookup_cons_self {K V : Type} [DecidableEq K] (k : K) (v : V) (d : List (K × V)) :
    dlookup ((k, v) :: d) k = some v := by
  unfold dlookup
  rw [List.find?_cons_of_pos]
  · rfl
  · simp

/-- Lookup walks past an entry with a different key. -/
theorem dlookup_cons_ne {K V : Type} [DecidableEq K] {k0 k : K} (hne : k0 ≠ k) (v0 : V)
    (d : List (K × V)) : dlookup ((k0, v0) :: d) k = dlookup d k := by
  unfold dlookup
  rw [List.find?_cons_of_neg]
  simp [hne]

/-- Dict assignment makes the new value retrievable at its key. -/
theorem dlookup_dinsert_self {K V : Type} [DecidableEq K] :
    ∀ (d : List (K × V)) (k : K) (v : V), dlookup (dinsert d k v) k = some v
  | [], k, v => dlookup_cons_self k v []
  | (k0, v0) :: rest, k, v => by
    unfold dinsert
    by_cases hk : k0 = k
    · rw [if_pos hk]
      exact dlookup_cons_self k v rest
    · rw [if_neg hk, dlookup_cons_ne hk v0 _]
      exact dlookup_dinsert_self rest k v

/-- A value found after a dict assignment is the new value or an old one. -/
theorem dlookup_dinsert_cases {K V : Type} [DecidableEq K] :
    ∀ (d : List (K × V)) (k : K) (v : V) (c : K) (x : V),
      dlookup (dinsert d k v) c = some x → x = v ∨ dlookup d c = some x
  | [], k, v, c, x => by
    intro h
    by_cases hc : k = c
    · subst hc
      rw [show dinsert ([] : List (K × V)) k v = [(k, v)] from rfl, dlookup_cons_self] at h
      injection h with h1
      exact Or.inl h1.symm
    · rw [show dinsert ([] : List (K × V)) k v = [(k, v)] from rfl,
        dlookup_cons_ne hc v []] at h
      simp [dlookup] at h
  | (k0, v0) :: rest, k, v, c, x => by
    intro h
    unfold dinsert at h
    by_cases hk : k0 = k
    · rw [if_pos hk] at h
      by_cases hc : k = c
      · subst hc
        rw [dlookup_cons_self] at h
        injection h with h1
        exact Or.inl h1.symm
      · rw [dlookup_cons_ne hc v rest] at h
        right
        subst hk
        rw [dlookup_cons_ne hc v0 rest]
        exact h
    · rw [if_neg hk] at h
      by_cases hc : k0 = c
      · subst hc
        rw [dlookup_cons_self] at h
        right
        rw [dlookup_cons_self]
        exact h
      · rw [dlookup_cons_ne hc _ _] at h
        rcases dlookup_dinsert_cases rest k v c x h with h1 | h1
        · exact Or.inl h1
        · right
          rw [dlookup_cons_ne hc v0 rest]
          exact h1

/-- The empty index satisfies every map predicate vacuously. -/
theorem emptyMaps (P : Product → Prop) : MapsP P emptyIndex := by
  refine ⟨?_, ?_, ?_, ?_, ?_⟩ <;>
    (intro k p h; simp [dlookup, emptyIndex, List.find?] at h)

/-- Adding a product that satisfies P preserves the map predicate. -/
theorem addProduct_maps {P : Product → Prop} {st : IndexState} {a : Product}
    (h : MapsP P st) (ha : P a) : MapsP P (addProduct st a) := by
  obtain ⟨h1, h2, h3, h4, h5⟩ := h
  refine ⟨?_, ?_, ?_, ?_, ?_⟩
  · intro k p hk
    rcases dlookup_dinsert_cases st.by_name a.name a k p hk with rfl | hh
    · exact ha
    · exact h1 k p hh
  · intro k p hk
    rcases dlookup_dinsert_cases st.by_name_lower a.name_lower a k p hk with rfl | hh
    · exact ha
    · exact h2 k p hh
  · intro k p hk
    rcases dlookup_dinsert_cases st.by_id a.id a k p hk with rfl | hh
    · exact ha
    · exact h3 k p hh
  · intro k p hk
    have hbc : (addProduct st a).by_code =
        if a.code ≠ [] then dinsert st.by_code a.code a else st.by_code := rfl
    rw [hbc] at hk
    split at hk
    · rcases dlookup_dinsert_cases st.by_code a.code a k p hk with rfl | hh
      · exact ha
      · exact h4 k p hh
    · exact h4 k p hk
  · intro k p hk
    rcases dlookup_dinsert_cases st.products a.id a k p hk with rfl | hh
    · exact ha
    · exact h5 k p hh

/-- Building over a list of products satisfying P preserves the map predicate. -/
theorem build_maps (P : Product → Prop) : ∀ (l : List Product) (st : IndexState),
    MapsP P st → (∀ p ∈ l, P p) → MapsP P (l.foldl addProduct st)
  | [], _, h, _ => h
  | a :: t, st, h, hl =>
    build_maps P t (addProduct st a)
      (addProduct_maps h (hl a (List.mem_cons_self a t)))
      (fun p hp => hl p (List.mem_cons_of_mem a hp))

/-- Appending to a bucket leaves other buckets untouched. -/
theorem dlookup_dAppendList_ne {K : Type} [DecidableEq K] {c k : K} (hne : ¬ c = k) :
    ∀ (d : List (K × List Int)) (v : Int), dlookup (dAppendList d k v) c = dlookup d c
  | [], v => by
    unfold dAppendList
    rw [dlookup_cons_ne (fun h => hne h.symm) _ _]
  | (k0, l0) :: rest, v => by
    unfold dAppendList
    by_cases hk : k0 = k
    · rw [if_pos hk]
      subst hk
      rw [dlookup_cons_ne (fun h => hne h.symm) _ _,
        dlookup_cons_ne (fun h => hne h.symm) _ _]
    · rw [if_neg hk]
      by_cases hc : k0 = c
      · subst hc
        rw [dlookup_cons_self, dlookup_cons_self]
      · rw [dlookup_cons_ne hc _ _, dlookup_cons_ne hc _ _]
        exact dlookup_dAppendList_ne hne rest v

/-- Appending to a bucket appends to the value found at its key. -/
theorem dlookup_dAppendList_self {K : Type} [DecidableEq K] :
    ∀ (d : List (K × List Int)) (k : K) (v : Int),
      dlookup (dAppendList d k v) k = some ((dlookup d k).getD [] ++ [v])
  | [], k, v => by
    unfold dAppendList
    rw [dlookup_cons_self]
    rfl
  | (k0, l0) :: rest, k, v => by
    unfold dAppendList
    by_cases hk : k0 = k
    · rw [if_pos hk]
      subst hk
      rw [dlookup_cons_self, dlookup_cons_self]
      rfl
    · rw [if_neg hk, dlookup_cons_ne hk _ _, dlookup_cons_ne hk _ _]
      exact dlookup_dAppendList_self rest k v

/-- The empty index satisfies every category predicate vacuously. -/
theorem emptyCat (Q : Int → Str → Prop) : CatP Q emptyIndex := by
  intro c ids h
  simp [dlookup, emptyIndex, List.find?] at h

/-- Adding a product preserves the category invariant. -/
theorem addProduct_cat {Q : Int → Str → Prop} {st : IndexState} {a : Product}
    (h : CatP Q st) (ha : Q a.id a.category) : CatP Q (addProduct st a) := by
  intro c ids hc
  have hbc : (addProduct st a).by_category =
      if a.category ≠ [] then dAppendList st.by_category a.category a.id
      else st.by_category := rfl
  rw [hbc] at hc
  split at hc
  · by_cases hck : c = a.category
    · subst hck
      rw [dlookup_dAppendList_self] at hc
      injection hc with h1
      subst h1
      constructor
      · simp
      · intro i hi
        rcases List.mem_append.1 hi with hi | hi
        · rcases hold : dlookup st.by_category a.category with _ | old
          · rw [hold] at hi
            simp at hi
          · rw [hold] at hi
            exact (h a.category old hold).2 i hi
        · rw [List.mem_singleton.1 hi]
          exact ha
    · rw [dlookup_dAppendList_ne hck] at hc
      exact h c ids hc
  · exact h c ids hc

/-- Building over products preserves the category invariant. -/
theorem build_cat (Q : Int → Str → Prop) : ∀ (l : List Product) (st : IndexState),
    CatP Q st → (∀ p ∈ l, Q p.id p.category) → CatP Q (l.foldl addProduct st)
  | [], _, h, _ => h
  | a :: t, st, h, hl =>
    build_cat Q t (addProduct st a)
      (addProduct_cat h (hl a (List.mem_cons_self a t)))
      (fun p hp => hl p (List.mem_cons_of_mem a hp))

/-- A nonempty category reached during the build stays present in by_category. -/
theorem build_cat_some : ∀ (l : List Product) (st : IndexState) (c : Str), c ≠ [] →
    ((dlookup st.by_category c).isSome = true ∨ ∃ p ∈ l, p.category = c) →
    (dlookup (l.foldl addProduct st).by_category c).isSome = true
  | [], _, c, _, h => by
    rcases h with h | ⟨p, hp, _⟩
    · exact h
    · exact absurd hp (List.not_mem_nil p)
  | a :: t, st, c, hc, h => by
    apply build_cat_some t (addProduct st a) c hc
    have hbc : (addProduct st a).by_category =
        if a.category ≠ [] then dAppendList st.by_category a.category a.id
        else st.by_category := rfl
    rcases h with h | ⟨p, hp, hpc⟩
    · left
      rw [hbc]
      split
      · by_cases hck : c = a.category
        · subst hck
          rw [dlookup_dAppendList_self]
          rfl
        · rw [dlookup_dAppendList_ne hck]
          exact h
      · exact h
    · rcases List.mem_cons.1 hp with rfl | hp2
      · left
        rw [hbc]
        subst hpc
        rw [if_pos hc, dlookup_dAppendList_self]
        rfl
      · exact Or.inr ⟨p, hp2, hpc⟩

/-- Membership through the dedup fold. -/
theorem mem_dedup_fold : ∀ (l acc : List Int) (x : Int),
    (x ∈ l.foldl (fun acc y => if y ∈ acc then acc else acc ++ [y]) acc) ↔
      x ∈ acc ∨ x ∈ l
  | [], acc, x => by simp
  | a :: t, acc, x => by
    show (x ∈ t.foldl _ (if a ∈ acc then acc else acc ++ [a])) ↔ _
    rw [mem_dedup_fold t _ x]
    by_cases ha : a ∈ acc
    · rw [if_pos ha]
      simp only [List.mem_cons]
      constructor
      · rintro (h | h)
        · exact Or.inl h
        · exact Or.inr (Or.inr h)
      · rintro (h | rfl | h)
        · exact Or.inl h
        · exact Or.inl ha
        · exact Or.inr h
    · rw [if_neg ha]
      simp only [List.mem_append, List.mem_singleton, List.mem_cons]
      tauto

/-- Deduplication preserves membership. -/
theorem mem_dedupList {l : List Int} {x : Int} : x ∈ dedupList l ↔ x ∈ l := by
  unfold dedupList
  rw [mem_dedup_fold]
  simp

/-- Deduplicating a nonempty list gives a nonempty list. -/
theorem dedupList_ne_nil {l : List Int} (h : l ≠ []) : dedupList l ≠ [] := by
  rcases l with _ | ⟨a, t⟩
  · exact absurd rfl h
  · intro hnil
    have ha : a ∈ dedupList (a :: t) := mem_dedupList.2 (List.mem_cons_self a t)
    rw [hnil] at ha
    exact absurd ha (List.not_mem_nil a)

/-- In a list with pairwise distinct ids, the id determines the element. -/
theorem pairwise_id_unique : ∀ {l : List Product},
    l.Pairwise (fun a b => a.id ≠ b.id) → ∀ {p q : Product}, p ∈ l → q ∈ l →
      p.id = q.id → p = q
  | [], _, p, _, hp, _, _ => absurd hp (List.not_mem_nil p)
  | a :: t, h, p, q, hp, hq, heq => by
    rw [List.pairwise_cons] at h
    rcases List.mem_cons.1 hp with rfl | hp2
    · rcases List.mem_cons.1 hq with rfl | hq2
      · rfl
      · exact absurd heq (h.1 q hq2)
    · rcases List.mem_cons.1 hq with rfl | hq2
      · exact absurd heq.symm (h.1 p hp2)
      · exact pairwise_id_unique h.2 hp2 hq2 heq

/-- C7 amended: add_product does not reject a duplicate id; it overwrites the per-id
entries with the new product and still increments total_count. -/
theorem c7_duplicate_id_overwrites (st : IndexState) (p : Product)
    (_h : (dlookup st.products p.id).isSome = true) :
    dlookup (addProduct st p).products p.id = some p ∧
      dlookup (addProduct st p).by_id p.id = some p ∧
      (addProduct st p).total_count = st.total_count + 1 :=
  ⟨dlookup_dinsert_self st.products p.id p, dlookup_dinsert_self st.by_id p.id p, rfl⟩

/-- C7 witness: re-adding id 1 overwrites the stored product and bumps the count. -/
theorem c7_duplicate_id_overwrites_witness :
    (dlookup cxStateF1.products (cxProd 1 [] ("bb".toList) []).id).isSome = true ∧
    dlookup (addProduct cxStateF1 (cxProd 1 [] ("bb".toList) [])).products
      (cxProd 1 [] ("bb".toList) []).id = some (cxProd 1 [] ("bb".toList) []) ∧
    (addProduct cxStateF1 (cxProd 1 [] ("bb".toList) [])).total_count =
      cxStateF1.total_count + 1 := by
  have h := c7_duplicate_id_overwrites cxStateF1 (cxProd 1 [] ("bb".toList) []) (by decide)
  exact ⟨by decide, h.1, h.2.2⟩

/-- C3 amended: when the category argument names a registered category (some product
of the catalog carries it) and the catalog has pairwise distinct ids, every result of
search belongs to that category; for an unregistered category the filter is silently
skipped and results of any category can be returned. -/
theorem c3_category_filter (py : Option Pinyin) (l : List Product) (q : Str) (lim : Int)
    (C : Str) (hdist : l.Pairwise (fun a b => a.id ≠ b.id)) (hC : C ≠ [])
    (hreg : ∃ p, p ∈ l ∧ p.category = C) :
    ∀ r ∈ search py (buildIndex l) q lim (some C), r.product.category = C := by
  intro r hr
  have hsome : (dlookup (buildIndex l).by_category C).isSome = true :=
    build_cat_some l emptyIndex C hC
      (Or.inr (by obtain ⟨p, hp, hpc⟩ := hreg; exact ⟨p, hp, hpc⟩))
  obtain ⟨ids, hids⟩ := Option.isSome_iff_exists.1 hsome
  have hfilt : catFilterOf (buildIndex l) (some C) = some (dedupList ids) := by
    unfold catFilterOf
    dsimp only
    rw [if_pos hC, hids]
  have hcat := build_cat (fun i c => ∃ p, p ∈ l ∧ p.id = i ∧ p.category = c) l emptyIndex
    (emptyCat _) (fun p hp => ⟨p, hp, rfl, rfl⟩)
  obtain ⟨hne, hmem⟩ := hcat C ids hids
  have hmaps := build_maps (fun p => p ∈ l) l emptyIndex (emptyMaps _) (fun p hp => hp)
  obtain ⟨hsite, hok⟩ := search_site hr
  have hrl : r.product ∈ l := by
    rcases hsite with h | h
    · rcases h with ⟨p, hp, rfl⟩ | ⟨p, hp, rfl⟩ | ⟨p, hp, rfl⟩ | ⟨p, hp, rfl⟩
      · exact hmaps.1 _ p hp
      · exact hmaps.2.1 _ p hp
      · exact hmaps.2.2.1 _ p hp
      · exact hmaps.2.2.2.1 _ p hp
    · rcases h with ⟨pid, hp, _⟩ | ⟨pid, hp, _⟩ | ⟨pid, hp, _⟩ | ⟨pid, qp, hp, _⟩ |
        ⟨pid, hp, _⟩ | ⟨pid, hp, _⟩ <;> exact hmaps.2.2.2.2 _ _ hp
  have hid : r.product.id ∈ dedupList ids :=
    hok (dedupList ids) hfilt (dedupList_ne_nil hne)
  obtain ⟨p', hp'l, hp'id, hp'c⟩ := hmem _ (mem_dedupList.1 hid)
  rw [show r.product = p' from pairwise_id_unique hdist hrl hp'l hp'id.symm]
  exact hp'c

/-- C3 witness: with the registered category the concrete search returns exactly the
exact match, whose category is the requested one. -/
theorem c3_category_filter_witness :
    (⟨cxProd 1 [] ("ab".toList) ("x".toList), 1, tagExact, fldName⟩ : SearchResult) ∈
      search none (buildIndex [cxProd 1 [] ("ab".toList) ("x".toList)]) ("ab".toList)
        5 (some ("x".toList)) ∧
    (⟨cxProd 1 [] ("ab".toList) ("x".toList), 1, tagExact, fldName⟩ :
      SearchResult).product.category = ("x".toList : Str) :=
  ⟨by decide,
    c3_category_filter none [cxProd 1 [] ("ab".toList) ("x".toList)] ("ab".toList) 5
      ("x".toList) (by decide) (by decide)
      ⟨cxProd 1 [] ("ab".toList) ("x".toList), by decide, by decide⟩
      ⟨cxProd 1 [] ("ab".toList) ("x".toList), 1, tagExact, fldName⟩ (by decide)⟩

end PIdx
